import Mathlib


/- A shallow embedding of the StreamNotes virtual-filesystem core:
   the tree store and its helpers (src/utils/fsHelpers.ts), the orphan-asset
   scan and the mutation handlers (src/App.tsx), and the sidebar display
   filter (src/components/Sidebar.tsx).  Pure functions are translated
   directly; the asynchronous disk backend is modelled by explicit oracles
   (a content oracle for file reads, success flags for physical writes),
   and the unbounded `while` loops and recursions of the source are
   embedded with an explicit fuel argument that provably dominates the
   source's recursion depth. -/


namespace StreamNotes


/-! Definitions: the embedded data model and operations. -/

/-- The two kinds of items (TS: `type: 'file' | 'folder'`). -/
inductive ItemType where
  | file : ItemType
  | folder : ItemType
deriving DecidableEq

/-- TS interface `FileSystemItem` as used by the code.  `hasHandle` models the
truthiness of the optional `handle` field, `content = none` models an
absent/undefined `content` payload. -/
structure FileSystemItem where
  id : String
  parentId : Option String
  name : String
  type : ItemType
  content : Option String := none
  createdAt : Nat := 0
  updatedAt : Nat := 0
  isOpen : Bool := false
  isLoaded : Bool := false
  hasHandle : Bool := false
deriving DecidableEq

/-- The comparator of `sortFileSystem` (fsHelpers.ts lines 5-14): folders
before files, then alphabetically by name (`localeCompare` is modelled by the
standard order on strings).  `fsLe a b` states that `a` may precede `b`. -/
def fsLe (a b : FileSystemItem) : Bool :=
  if a.type = b.type then decide (a.name ≤ b.name) else decide (a.type = ItemType.folder)

/-- The sibling order as a relation. -/
def FsLeR (a b : FileSystemItem) : Prop := fsLe a b = true

instance : DecidableRel FsLeR := fun a b => instDecidableEqBool (fsLe a b) true

instance : IsTrans FileSystemItem FsLeR where
  trans := by
    intro a b c h1 h2
    rw [FsLeR, fsLe] at h1 h2 ⊢
    by_cases hab : a.type = b.type <;> by_cases hbc : b.type = c.type
    · rw [if_pos hab] at h1
      rw [if_pos hbc] at h2
      rw [if_pos (hab.trans hbc)]
      exact decide_eq_true (le_trans (of_decide_eq_true h1) (of_decide_eq_true h2))
    · rw [if_pos hab] at h1
      rw [if_neg hbc] at h2
      rw [if_neg (fun h => hbc (hab.symm.trans h)), hab]
      exact h2
    · rw [if_neg hab] at h1
      rw [if_pos hbc] at h2
      rw [if_neg (fun h => hab (h.trans hbc.symm))]
      exact h1
    · rw [if_neg hab] at h1
      rw [if_neg hbc] at h2
      exact absurd ((of_decide_eq_true h1).trans (of_decide_eq_true h2).symm) hab

instance : IsTotal FileSystemItem FsLeR where
  total := by
    intro a b
    rw [FsLeR, FsLeR, fsLe, fsLe]
    by_cases hab : a.type = b.type
    · rw [if_pos hab, if_pos hab.symm]
      rcases le_total a.name b.name with h | h
      · exact Or.inl (decide_eq_true h)
      · exact Or.inr (decide_eq_true h)
    · rw [if_neg hab, if_neg (fun h => hab h.symm)]
      cases ha : a.type <;> cases hb : b.type <;> simp_all

/-- fsHelpers.ts `sortFileSystem`: a stable sort by the comparator
(JS `Array.prototype.sort` is stable, and all stable sorts under a total
preorder agree; modelled by `List.insertionSort`). -/
def sortFileSystem (items : List FileSystemItem) : List FileSystemItem :=
  List.insertionSort FsLeR items

/-- fsHelpers.ts `getChildItems`. -/
def getChildItems (items : List FileSystemItem) (parentId : Option String) :
    List FileSystemItem :=
  sortFileSystem (items.filter (fun item => item.parentId == parentId))

/-- fsHelpers.ts `deleteItemRecursive`, with an explicit fuel argument for the
recursion (the source recursion terminates because every recursive call
receives a strictly shorter list; `fuel = items.length` dominates it, see
`deleteItemRecursive`). -/
def deleteItemRecursiveF : Nat → List FileSystemItem → String → List FileSystemItem
  | 0, items, _ => items
  | fuel + 1, items, itemId =>
    match items.find? (fun i => i.id == itemId) with
    | none => items
    | some item =>
      let newItems := items.filter (fun i => !(i.id == itemId))
      if item.type = ItemType.folder then
        (items.filter (fun i => i.parentId == some itemId)).foldl
          (fun acc child => deleteItemRecursiveF fuel acc child.id) newItems
      else newItems

/-- fsHelpers.ts `deleteItemRecursive` (lines 20-35). -/
def deleteItemRecursive (items : List FileSystemItem) (itemId : String) :
    List FileSystemItem :=
  deleteItemRecursiveF items.length items itemId

/-- `Step items c p`: the collection holds an item with id `c` whose
`parentId` is `p` (one upward step of the ancestor chain). -/
def Step (items : List FileSystemItem) (c p : String) : Prop :=
  ∃ i ∈ items, i.id = c ∧ i.parentId = some p

/-- The item `i` lies in the subtree rooted at id `root`: it is the root
itself, or its ancestor chain reaches `root`. -/
def InSubtree (items : List FileSystemItem) (root : String) (i : FileSystemItem) : Prop :=
  i.id = root ∨ Relation.TransGen (Step items) i.id root

/-- The data-model invariants of the tree store (spec section 3): ids are
unique, every parent reference that resolves to an item resolves to a folder,
and parent chains are acyclic. -/
structure WellFormed (items : List FileSystemItem) : Prop where
  nodupIds : (items.map FileSystemItem.id).Nodup
  parentsAreFolders :
    ∀ i ∈ items, ∀ p ∈ items, i.parentId = some p.id → p.type = ItemType.folder
  acyclic : ∀ x, ¬ Relation.TransGen (Step items) x x

/-- Every non-null `parentId` references an existing item (no dangling
parents); kept separate from `WellFormed` because sub-collections arising
during recursive deletion can transiently violate it. -/
def ParentsClosed (items : List FileSystemItem) : Prop :=
  ∀ i ∈ items, ∀ pid, i.parentId = some pid → ∃ p ∈ items, p.id = pid

/-- Per-item check that a rank function decreases along the parent edge. -/
def rankOkB (rank : String → Nat) (i : FileSystemItem) : Bool :=
  match i.parentId with
  | none => true
  | some p => decide (rank p < rank i.id)

/-- Boolean version of `ParentsClosed`. -/
def parentsClosedB (items : List FileSystemItem) : Bool :=
  items.all (fun i =>
    match i.parentId with
    | none => true
    | some pid => items.any (fun p => p.id == pid))

/-- A small concrete well-formed collection used by the delete witnesses:
a root folder holding a note and a subfolder with a note, plus a root note. -/
def itemsDel : List FileSystemItem :=
  [ { id := "f1", parentId := none, name := "docs", type := ItemType.folder },
    { id := "n1", parentId := some "f1", name := "a.md", type := ItemType.file },
    { id := "g1", parentId := some "f1", name := "sub", type := ItemType.folder },
    { id := "n2", parentId := some "g1", name := "b.md", type := ItemType.file },
    { id := "n3", parentId := none, name := "c.md", type := ItemType.file } ]

/-- Depth function witnessing acyclicity of `itemsDel`. -/
def rankDel (s : String) : Nat :=
  if s = "f1" then 0 else if s = "g1" then 1 else 2

/-- The root-level note of `itemsDel`. -/
def itemN3 : FileSystemItem :=
  { id := "n3", parentId := none, name := "c.md", type := ItemType.file }

def strToLower (s : String) : String :=
  String.mk (s.data.map Char.toLower)

def strEndsWith (s suffix : String) : Bool :=
  decide (List.IsSuffix suffix.data s.data)

def strTrim (s : String) : String :=
  String.mk (((s.data.dropWhile Char.isWhitespace).reverse.dropWhile
    Char.isWhitespace).reverse)

def strContains (s pat : String) : Bool :=
  decide (List.IsInfix pat.data s.data)

/-- The image-extension test `/\.(png|jpg|jpeg|gif|webp|svg)$/i` used
throughout App.tsx. -/
def isImageName (name : String) : Bool :=
  let l := strToLower name
  strEndsWith l ".png" || strEndsWith l ".jpg" || strEndsWith l ".jpeg" ||
    strEndsWith l ".gif" || strEndsWith l ".webp" || strEndsWith l ".svg"

/-- The note-file test `name.toLowerCase().endsWith('.md')`. -/
def isMarkdownName (name : String) : Bool :=
  strEndsWith (strToLower name) ".md"

/-- App.tsx `isImageReferenced` (lines 320-324): the image name is escaped
and tested as a regular expression against the corpus, which is exactly a
literal substring test. -/
def isImageReferenced (imgName content : String) : Bool :=
  strContains content imgName

/-- App.tsx `getMarkdownFilesContent` (lines 296-317).  `disk` is the oracle
for `handle.getFile()` keyed by item id: `none` models a read failure, in
which case the source logs a warning and `continue`s, skipping only that
file. -/
def getMarkdownFilesContent (isLocalMode : Bool) (disk : String → Option String)
    (mdFiles : List FileSystemItem) : String :=
  mdFiles.foldl (fun combined md =>
    if isLocalMode && md.hasHandle && !md.isLoaded then
      match disk md.id with
      | some text => combined ++ text ++ "\n"
      | none => combined
    else combined ++ (md.content.getD "") ++ "\n") ""

/-- App.tsx `scanFolderForOrphanedImages` (lines 327-344). -/
def scanFolderForOrphanedImages (isLocalMode : Bool) (disk : String → Option String)
    (folderId : Option String) (allFiles : List FileSystemItem) :
    List FileSystemItem :=
  let siblings := allFiles.filter (fun i => i.parentId == folderId)
  let mdFiles := siblings.filter (fun i => isMarkdownName i.name)
  let imgFiles := siblings.filter (fun i => isImageName i.name)
  if imgFiles.isEmpty then []
  else
    let combinedContent := getMarkdownFilesContent isLocalMode disk mdFiles
    imgFiles.filter (fun img => !(isImageReferenced img.name combinedContent))

/-- App.tsx `handleDeleteItem` (lines 621-645), restricted to the file-system
state.  `removeOk id` is the oracle for the physical `removeEntry` call on
the item's parent handle: `false` models a throw, after which the source
returns without touching the in-memory collection.  (When the item has no
handle, or in memory mode, no physical deletion is attempted.) -/
def handleDeleteItem (isLocalMode : Bool) (removeOk : String → Bool)
    (fs : List FileSystemItem) (id : String) : List FileSystemItem :=
  match fs.find? (fun i => i.id == id) with
  | some itm =>
    if isLocalMode && itm.hasHandle && !(removeOk id) then fs
    else deleteItemRecursive fs id
  | none => deleteItemRecursive fs id

/-- Insertion-order set insertion (JS `Set.prototype.add`). -/
def insertUnique {α : Type} [DecidableEq α] (l : List α) (a : α) : List α :=
  if a ∈ l then l else l ++ [a]

/-- The folder scopes visited by `handleCleanupAssets` (App.tsx lines
371-374): `new Set(allFiles.map(i => i.parentId))` plus `null`, in insertion
order. -/
def collectScopes (fs : List FileSystemItem) : List (Option String) :=
  insertUnique (fs.foldl (fun acc i => insertUnique acc i.parentId) []) none

/-- The scan phase of `handleCleanupAssets` (App.tsx lines 375-381): orphans
of every scope, concatenated in scope order, computed over the snapshot
`fs`. -/
def scanAllOrphans (isLocalMode : Bool) (disk : String → Option String)
    (fs : List FileSystemItem) : List FileSystemItem :=
  (collectScopes fs).foldl
    (fun acc folderId => acc ++ scanFolderForOrphanedImages isLocalMode disk folderId fs) []

/-- Whether `handleDeleteItem` (App.tsx lines 621-645) returns from its
catch before reaching `setFileSystem`: the item is found, is handle-backed
in disk mode, and the physical `removeEntry` throws.  All lookups read the
render-time snapshot `fs`. -/
def handleDeleteAborts (isLocalMode : Bool) (removeOk : String → Bool)
    (fs : List FileSystemItem) (id : String) : Bool :=
  match fs.find? (fun i => i.id == id) with
  | some itm => isLocalMode && itm.hasHandle && !(removeOk id)
  | none => false

/-- App.tsx `deleteOrphanedImages` (lines 347-354): calls `handleDeleteItem`
once per orphan and increments the counter unconditionally.  Crucially,
`handleDeleteItem` reads the `fileSystem` closure captured at render time —
the snapshot `fs`, not the current loop state — and calls
`setFileSystem(deleteItemRecursive(fileSystem, id))` with a plain (not
functional) update.  So every non-aborting call overwrites the state
wholesale with the snapshot minus that one orphan's subtree (last write
wins), while an aborting call leaves the state as it was. -/
def deleteOrphanedImages (isLocalMode : Bool) (removeOk : String → Bool)
    (orphanedImages : List FileSystemItem) (fs : List FileSystemItem) :
    List FileSystemItem × Nat :=
  orphanedImages.foldl
    (fun st itm =>
      (if handleDeleteAborts isLocalMode removeOk fs itm.id then st.1
       else deleteItemRecursive fs itm.id, st.2 + 1)) (fs, 0)

/-- App.tsx `handleCleanupAssets` (lines 366-385): scan all scopes over a
snapshot, then delete the orphans; returns the new collection and the
reported count. -/
def handleCleanupAssets (isLocalMode : Bool) (disk : String → Option String)
    (removeOk : String → Bool) (fs : List FileSystemItem) :
    List FileSystemItem × Nat :=
  deleteOrphanedImages isLocalMode removeOk (scanAllOrphans isLocalMode disk fs) fs

/-- A disk oracle on which every read fails. -/
def diskFailAll : String → Option String := fun _ => none

/-- C1 failing input: a scope whose only note is unloaded and unreadable,
next to an asset that only that note references (on disk). -/
def noteC1 : FileSystemItem :=
  { id := "m1", parentId := none, name := "a.md", type := ItemType.file,
    hasHandle := true, isLoaded := false }

def imgC1 : FileSystemItem :=
  { id := "i1", parentId := none, name := "img.png", type := ItemType.file,
    hasHandle := true, isLoaded := true }

def itemsC1 : List FileSystemItem := [noteC1, imgC1]

/-- The newline-terminated scan corpus of a scope (how the source builds it
on loaded notes). -/
def loadedNoteCorpus (folderId : Option String) (allFiles : List FileSystemItem) :
    String :=
  String.join
    (((allFiles.filter (fun i => i.parentId == folderId)).filter
      (fun i => isMarkdownName i.name)).map (fun md => md.content.getD "" ++ "\n"))

/-- Follows the claim's wording, not the source: the plain concatenation of
the contents of the scope's note files, with no separator between notes. -/
def claimNoteConcat (folderId : Option String) (allFiles : List FileSystemItem) :
    String :=
  String.join
    (((allFiles.filter (fun i => i.parentId == folderId)).filter
      (fun i => isMarkdownName i.name)).map (fun md => md.content.getD ""))

/-- C3 counterexample input: two loaded notes whose contents are "im" and
"g.png", and an asset "img.png".  The claim's plain concatenation "img.png"
contains the asset name, yet the code's newline-separated corpus does not,
so the code classifies the asset as orphaned. -/
def noteC3a : FileSystemItem :=
  { id := "m1", parentId := none, name := "a.md", type := ItemType.file,
    content := some "im", isLoaded := true }

def noteC3b : FileSystemItem :=
  { id := "m2", parentId := none, name := "b.md", type := ItemType.file,
    content := some "g.png", isLoaded := true }

def imgC3 : FileSystemItem :=
  { id := "i1", parentId := none, name := "img.png", type := ItemType.file,
    isLoaded := true }

def itemsC3 : List FileSystemItem := [noteC3a, noteC3b, imgC3]

/-- C4 counterexample input: a folder named "pics.png" with a note inside.
Nothing references the folder's name, so the scan reports the folder itself
as an orphan, and the cleanup deletion removes its entire subtree. -/
def folderC4 : FileSystemItem :=
  { id := "p1", parentId := none, name := "pics.png", type := ItemType.folder }

def noteC4 : FileSystemItem :=
  { id := "n1", parentId := some "p1", name := "b.md", type := ItemType.file,
    content := some "hello", isLoaded := true }

def itemsC4 : List FileSystemItem := [folderC4, noteC4]

/-- C4 amended-claim witness input: a loaded note and an unreferenced image
file in the same (root) scope. -/
def noteC4w : FileSystemItem :=
  { id := "m1", parentId := none, name := "x.md", type := ItemType.file,
    content := some "hi", isLoaded := true }

def imgC4w : FileSystemItem :=
  { id := "i1", parentId := none, name := "cat.png", type := ItemType.file,
    isLoaded := true }

def itemsC4w : List FileSystemItem := [noteC4w, imgC4w]

/-- C5 failing input (disk mode): a single unreferenced image whose physical
deletion fails. -/
def imgC5 : FileSystemItem :=
  { id := "i1", parentId := none, name := "pic.png", type := ItemType.file,
    hasHandle := true, isLoaded := true }

def itemsC5 : List FileSystemItem := [imgC5]

/-- C5 failing input (memory mode): two unreferenced images in the root
scope.  Both are classified orphaned; the deletion loop computes each new
collection from the same stale snapshot, so the second `setFileSystem`
overwrites the first and only the last orphan is actually removed. -/
def imgC5a : FileSystemItem :=
  { id := "i1", parentId := none, name := "a.png", type := ItemType.file,
    isLoaded := true }

def imgC5b : FileSystemItem :=
  { id := "i2", parentId := none, name := "b.png", type := ItemType.file,
    isLoaded := true }

def itemsC5two : List FileSystemItem := [imgC5a, imgC5b]

/-- The name-collision `while` loops of App.tsx: candidates `first, mk 1,
mk 2, …` are tried until one is not taken.  The fuel dominates the source's
loop, which always terminates because the numbered candidates are pairwise
distinct (see `uniqueNameF_not_taken`). -/
def uniqueNameF (taken : String → Bool) (mk : Nat → String) :
    Nat → Nat → String → String
  | 0, _, name => name
  | fuel + 1, count, name =>
    if taken name then uniqueNameF taken mk fuel (count + 1) (mk count) else name

/-- The numbered candidate `` `${stem} (${count})${ext}` ``. -/
def numberedName (stem ext : String) (c : Nat) : String :=
  stem ++ " (" ++ Nat.repr c ++ ")" ++ ext

/-- TS `name.lastIndexOf('.')` split: the part before the last dot and the
part from the last dot on, when the last dot exists at a positive index;
otherwise the whole name with an empty extension (`dotIndex > 0` in the
source). -/
def splitAtLastDot (name : String) : String × String :=
  match name.data.reverse.findIdx? (fun c => c == '.') with
  | none => (name, "")
  | some k =>
    let dotIndex := name.data.length - 1 - k
    if 0 < dotIndex then
      (String.mk (name.data.take dotIndex), String.mk (name.data.drop dotIndex))
    else (name, "")

/-- App.tsx `generateUniqueFileName` (lines 193-210): exact (case-sensitive)
sibling-name collision check, counter appended before the extension. -/
def generateUniqueFileName (fileSystem : List FileSystemItem) (fileName : String)
    (parentId : Option String) : String :=
  let parts := splitAtLastDot fileName
  uniqueNameF
    (fun name => fileSystem.any (fun i => i.parentId == parentId && i.name == name))
    (numberedName parts.1 parts.2)
    (fileSystem.length + 2) 1 fileName

/-- The base name and extension of the create-item naming loops (App.tsx
lines 490-495 in local mode, 508-517 in memory mode). -/
def createBaseName (isLocalMode : Bool) (t : ItemType) : String × String :=
  match isLocalMode, t with
  | true, ItemType.file => ("NewNote", ".md")
  | true, ItemType.folder => ("NewFolder", "")
  | false, ItemType.file => ("新建笔记", "")
  | false, ItemType.folder => ("新建文件夹", "")

/-- The name chosen by `handleCreateItem` (exact sibling-name check in both
modes). -/
def createUniqueName (isLocalMode : Bool) (t : ItemType) (fs : List FileSystemItem)
    (parentId : Option String) : String :=
  let parts := createBaseName isLocalMode t
  uniqueNameF
    (fun name => fs.any (fun i => i.parentId == parentId && i.name == name))
    (numberedName parts.1 parts.2)
    (fs.length + 2) 1 (parts.1 ++ parts.2)

/-- App.tsx `handleCreateItem` (lines 477-542).  In local mode a failing
physical create (`physOk = false`) makes the source return from the catch
before any in-memory update; on success the created handle's name is the
requested unique name. -/
def handleCreateItem (isLocalMode physOk : Bool) (t : ItemType)
    (parentId : Option String) (newId : String) (now : Nat)
    (fs : List FileSystemItem) : List FileSystemItem :=
  if isLocalMode && !physOk then fs
  else
    let name := createUniqueName isLocalMode t fs parentId
    let newItem : FileSystemItem :=
      { id := newId, parentId := parentId, name := name, type := t,
        content := if t = ItemType.file then some "" else none,
        createdAt := now, updatedAt := now, isOpen := true,
        hasHandle := isLocalMode, isLoaded := true }
    let fs1 := fs ++ [newItem]
    if t = ItemType.file then
      match parentId with
      | some p => fs1.map (fun i => if i.id == p then { i with isOpen := true } else i)
      | none => fs1
    else fs1

/-- App.tsx `handleRenameItem` (lines 544-619).  The duplicate check is
case-insensitive against the trimmed new name; the assignment stores the new
name untrimmed.  `physOk = false` models any throw in the physical rename
(including the unsupported-browser and missing-parent-handle returns), after
which the source returns before the in-memory update. -/
def handleRenameItem (isLocalMode physOk : Bool) (fs : List FileSystemItem)
    (id newName : String) (now : Nat) : List FileSystemItem :=
  if strTrim newName == "" then fs
  else
    match fs.find? (fun i => i.id == id) with
    | none => fs
    | some item =>
      if item.name == newName then fs
      else if fs.any (fun i => i.parentId == item.parentId && !(i.id == id) &&
          strToLower i.name == strToLower (strTrim newName)) then fs
      else if isLocalMode && item.hasHandle && !physOk then fs
      else fs.map (fun i => if i.id == id then
        { i with name := newName, updatedAt := now } else i)

/-- App.tsx `handleImageUpload` (lines 266-286) with its helpers: rejects
non-image names (`validateImage`), writes the blob to the physical backend
(`physOk = false` models a throw by `saveImageToDisk`/`saveImageToMemory`,
which propagates before any in-memory update), and appends the new item with
the collision-free name.  `parentId` is the parent of the active item, whose
existence `validateImage` has checked. -/
def handleImageUpload (isLocalMode physOk : Bool) (fs : List FileSystemItem)
    (parentId : Option String) (fileName dataUri newId : String) (now : Nat) :
    List FileSystemItem :=
  if !(isImageName fileName) then fs
  else if !physOk then fs
  else
    let name := generateUniqueFileName fs fileName parentId
    let newItem : FileSystemItem :=
      { id := newId, parentId := parentId, name := name,
        type := ItemType.file,
        content := if isLocalMode then none else some dataUri,
        createdAt := now, updatedAt := now, isOpen := false,
        hasHandle := isLocalMode, isLoaded := true }
    fs ++ [newItem]

/-- Concrete state for the C7 witness: one handle-backed note. -/
def itemsC7 : List FileSystemItem :=
  [ { id := "n1", parentId := none, name := "a.md", type := ItemType.file,
      hasHandle := true, isLoaded := true } ]

/-- The numeric value of a decimal digit character. -/
def digitVal (c : Char) : Nat := c.toNat - 48

/-- Reading a digit string back into a number. -/
def ofDigits (l : List Char) : Nat := l.foldl (fun acc c => acc * 10 + digitVal c) 0

/-- Freshness of a generated id (models `generateId` producing an id not in
use, the data model's id-uniqueness assumption). -/
def FreshId (fs : List FileSystemItem) (nid : String) : Prop :=
  ∀ i ∈ fs, i.id ≠ nid

instance freshId_decidable (fs : List FileSystemItem) (nid : String) :
    Decidable (FreshId fs nid) :=
  inferInstanceAs (Decidable (∀ i ∈ fs, i.id ≠ nid))

/-- States reachable from the empty collection through the public mutation
operations (create item, rename, image upload).  Generated ids are assumed
fresh, and rename inputs arrive whitespace-trimmed — which is how the
sidebar invokes `onRenameItem` (`renameValue.trim()`). -/
inductive ReachableVFS : List FileSystemItem → Prop where
  | init : ReachableVFS []
  | create (fs : List FileSystemItem) (lm ok : Bool) (t : ItemType)
      (pid : Option String) (nid : String) (now : Nat) :
      ReachableVFS fs → FreshId fs nid →
      ReachableVFS (handleCreateItem lm ok t pid nid now fs)
  | rename (fs : List FileSystemItem) (lm ok : Bool) (id newName : String)
      (now : Nat) : ReachableVFS fs → strTrim newName = newName →
      ReachableVFS (handleRenameItem lm ok fs id newName now)
  | upload (fs : List FileSystemItem) (lm ok : Bool) (pid : Option String)
      (fileName dataUri nid : String) (now : Nat) :
      ReachableVFS fs → FreshId fs nid →
      ReachableVFS (handleImageUpload lm ok fs pid fileName dataUri nid now)

/-- The maintained invariant: pairwise distinct ids, and exact (binary)
distinctness of names within each sibling scope. -/
def SiblingNamesOk (fs : List FileSystemItem) : Prop :=
  List.Pairwise
    (fun i j => i.id ≠ j.id ∧ (i.parentId = j.parentId → i.name ≠ j.name)) fs

/-- The state reached by uploading "cat.png" and then "CAT.png" into the
root scope in memory mode. -/
def itemsC6bad : List FileSystemItem :=
  handleImageUpload false true
    (handleImageUpload false true [] none "cat.png" "d" "i1" 0)
    none "CAT.png" "d" "i2" 1

/-- `item.type === 'folder' || item.name.toLowerCase().endsWith('.md')`. -/
def displayableB (i : FileSystemItem) : Bool :=
  (i.type == ItemType.folder) || isMarkdownName i.name

/-- Case-insensitive substring match of the query in the item's name. -/
def nameMatchesB (q : String) (i : FileSystemItem) : Bool :=
  strContains (strToLower i.name) (strToLower q)

/-- `searchQuery ? name.includes(query) : true` (empty strings are falsy). -/
def isVisibleB (q : String) (i : FileSystemItem) : Bool :=
  if q == "" then true else nameMatchesB q i

/-- Sidebar.tsx `hasVisibleChildren` with fuel for the recursion over the
children (the fuel `items.length + 1` of `hasVisibleChildren` dominates the
source's recursion depth on any well-formed tree). -/
def hasVisibleChildrenF (items : List FileSystemItem) (q : String) :
    Nat → String → Bool
  | 0, _ => false
  | fuel + 1, parentId =>
    (getChildItems items (some parentId)).any (fun c =>
      ((c.type == ItemType.folder) || isMarkdownName c.name) &&
        (nameMatchesB q c ||
          ((c.type == ItemType.folder) && hasVisibleChildrenF items q fuel c.id)))

def hasVisibleChildren (items : List FileSystemItem) (q : String)
    (parentId : String) : Bool :=
  hasVisibleChildrenF items q (items.length + 1) parentId

/-- `shouldShow` of `renderTreeItem`. -/
def shouldShowItem (items : List FileSystemItem) (q : String)
    (i : FileSystemItem) : Bool :=
  isVisibleB q i || ((i.type == ItemType.folder) && hasVisibleChildren items q i.id)

/-- Whether `renderTreeItem` renders the item (the two early `return null`
filters: non-displayable kinds are always hidden; under a non-empty query an
item is hidden unless `shouldShow`). -/
def treeItemShown (items : List FileSystemItem) (q : String)
    (i : FileSystemItem) : Bool :=
  displayableB i && ((q == "") || shouldShowItem items q i)

/-- `const isOpen = searchQuery ? true : item.isOpen`. -/
def renderedOpen (q : String) (i : FileSystemItem) : Bool :=
  if q == "" then i.isOpen else true

/-- `x` lies at most `n` parent-steps below `top`, decomposed at the top. -/
inductive DescendsWithin (items : List FileSystemItem) :
    Nat → String → String → Prop where
  | direct (i : FileSystemItem) (top : String) :
      i ∈ items → i.parentId = some top → DescendsWithin items 1 i.id top
  | through (n : Nat) (i : FileSystemItem) (top y : String) :
      i ∈ items → i.parentId = some top → DescendsWithin items n y i.id →
      DescendsWithin items (n + 1) y top

/-- C9 counterexample input: a folder "docs" holding only the image
"cat.png". -/
def folderC9 : FileSystemItem :=
  { id := "f1", parentId := none, name := "docs", type := ItemType.folder }

def imgC9 : FileSystemItem :=
  { id := "i1", parentId := some "f1", name := "cat.png", type := ItemType.file,
    isLoaded := true }

def itemsC9 : List FileSystemItem := [folderC9, imgC9]

/-- Depth witness for `itemsC9`. -/
def rankC9 (s : String) : Nat := if s = "f1" then 0 else 1

/-! Theorems. -/

theorem foldl_delete_sublist (fuel : Nat)
    (ih : ∀ items itemId, List.Sublist (deleteItemRecursiveF fuel items itemId) items)
    (children : List FileSystemItem) (acc : List FileSystemItem) :
    List.Sublist
      (children.foldl (fun acc child => deleteItemRecursiveF fuel acc child.id) acc)
      acc := by
  induction children generalizing acc with
  | nil => simp
  | cons c cs ihc =>
    simp only [List.foldl_cons]
    exact (ihc (deleteItemRecursiveF fuel acc c.id)).trans (ih acc c.id)

theorem deleteItemRecursiveF_sublist :
    ∀ (fuel : Nat) (items : List FileSystemItem) (itemId : String),
      List.Sublist (deleteItemRecursiveF fuel items itemId) items := by
  intro fuel
  induction fuel with
  | zero => intro items itemId; simp [deleteItemRecursiveF]
  | succ fuel ih =>
    intro items itemId
    simp only [deleteItemRecursiveF]
    cases hfind : items.find? (fun i => i.id == itemId) with
    | none => exact List.Sublist.refl items
    | some item =>
      by_cases htype : item.type = ItemType.folder
      · simp only [htype, if_pos rfl]
        exact (foldl_delete_sublist fuel ih _ _).trans (List.filter_sublist items)
      · simp only [if_neg htype]
        exact List.filter_sublist items

theorem deleteItemRecursive_sublist (items : List FileSystemItem) (itemId : String) :
    List.Sublist (deleteItemRecursive items itemId) items :=
  deleteItemRecursiveF_sublist items.length items itemId

/-- If no element carries the target id, the delete is a no-op (any fuel). -/
theorem deleteItemRecursiveF_not_found (fuel : Nat) (items : List FileSystemItem)
    (itemId : String) (h : ∀ i ∈ items, i.id ≠ itemId) :
    deleteItemRecursiveF fuel items itemId = items := by
  cases fuel with
  | zero => simp [deleteItemRecursiveF]
  | succ fuel =>
    have hfind : items.find? (fun i => i.id == itemId) = none := by
      apply List.find?_eq_none.mpr
      intro i hi
      simpa using h i hi
    simp [deleteItemRecursiveF, hfind]

/-- When the target is found, the result is a sublist of the list with the
target id filtered out. -/
theorem deleteItemRecursiveF_sublist_filter (fuel : Nat) (items : List FileSystemItem)
    (itemId : String) (item : FileSystemItem)
    (hfind : items.find? (fun i => i.id == itemId) = some item) :
    List.Sublist (deleteItemRecursiveF (fuel + 1) items itemId)
      (items.filter (fun i => !(i.id == itemId))) := by
  simp only [deleteItemRecursiveF, hfind]
  by_cases htype : item.type = ItemType.folder
  · simp only [if_pos htype]
    exact foldl_delete_sublist fuel (fun l s => deleteItemRecursiveF_sublist fuel l s) _ _
  · simp only [if_neg htype]
    exact List.Sublist.refl _

/-- With positive fuel the target id never survives the delete. -/
theorem deleteItemRecursiveF_id_gone (fuel : Nat) (items : List FileSystemItem)
    (itemId : String) (i : FileSystemItem)
    (hmem : i ∈ deleteItemRecursiveF (fuel + 1) items itemId) : i.id ≠ itemId := by
  intro hid
  cases hfind : items.find? (fun i => i.id == itemId) with
  | none =>
    simp only [deleteItemRecursiveF, hfind] at hmem
    have := List.find?_eq_none.mp hfind i hmem
    simp [hid] at this
  | some item =>
    have hsub := deleteItemRecursiveF_sublist_filter fuel items itemId item hfind
    have hmem2 := hsub.subset hmem
    have := List.of_mem_filter hmem2
    simp [hid] at this

/-- Recursive delete is idempotent: deleting an id a second time is a no-op. -/
theorem deleteItemRecursive_idempotent (items : List FileSystemItem) (itemId : String) :
    deleteItemRecursive (deleteItemRecursive items itemId) itemId =
      deleteItemRecursive items itemId := by
  apply deleteItemRecursiveF_not_found
  intro i hi
  rw [deleteItemRecursive] at hi
  cases hlen : items.length with
  | zero =>
    rw [hlen] at hi
    simp only [deleteItemRecursiveF] at hi
    intro hid
    have hnil : items = [] := List.length_eq_zero.mp hlen
    rw [hnil] at hi
    simp at hi
  | succ n =>
    rw [hlen] at hi
    exact deleteItemRecursiveF_id_gone n items itemId i hi

theorem Step.mono {l₁ l₂ : List FileSystemItem} (h : ∀ i ∈ l₁, i ∈ l₂)
    {c p : String} (hs : Step l₁ c p) : Step l₂ c p := by
  obtain ⟨i, hi, hic, hip⟩ := hs
  exact ⟨i, h i hi, hic, hip⟩

theorem transGen_step_mono {l₁ l₂ : List FileSystemItem} (h : ∀ i ∈ l₁, i ∈ l₂)
    {c p : String} (ht : Relation.TransGen (Step l₁) c p) :
    Relation.TransGen (Step l₂) c p :=
  Relation.TransGen.mono (fun _ _ hs => Step.mono h hs) ht

theorem wellFormed_of_sublist {l items : List FileSystemItem}
    (hsub : List.Sublist l items) (wf : WellFormed items) : WellFormed l := by
  refine ⟨ ?_, ?_, ?_ ⟩
  · exact List.Nodup.sublist (hsub.map FileSystemItem.id) wf.nodupIds
  · intro i hi p hp hip
    exact wf.parentsAreFolders i (hsub.subset hi) p (hsub.subset hp) hip
  · intro x hx
    exact wf.acyclic x (transGen_step_mono (fun i hi => hsub.subset hi) hx)

/-- With unique ids, any two items sharing an id are equal. -/
theorem eq_of_id_eq {items : List FileSystemItem}
    (hnd : (items.map FileSystemItem.id).Nodup) {i j : FileSystemItem}
    (hi : i ∈ items) (hj : j ∈ items) (h : i.id = j.id) : i = j :=
  List.inj_on_of_nodup_map hnd hi hj h

/-- With unique ids, the only step out of an item's id goes to its parent. -/
theorem step_eq_parent {items : List FileSystemItem}
    (hnd : (items.map FileSystemItem.id).Nodup) {j : FileSystemItem}
    (hj : j ∈ items) {y : String} (hs : Step items j.id y) :
    j.parentId = some y := by
  obtain ⟨i, hi, hic, hip⟩ := hs
  rw [eq_of_id_eq hnd hj hi hic.symm] ; exact hip

/-- If nothing in the collection carries id `root`, no ancestor chain inside a
parent-closed collection reaches `root`. -/
theorem no_chain_to_absent {items : List FileSystemItem}
    (hclosed : ParentsClosed items) {root : String}
    (habs : ∀ i ∈ items, i.id ≠ root) (x : String) :
    ¬ Relation.TransGen (Step items) x root := by
  intro hchain
  obtain ⟨b, _, hstep⟩ := Relation.TransGen.tail'_iff.mp hchain
  obtain ⟨c, hc, _, hcp⟩ := hstep
  obtain ⟨p, hp, hpid⟩ := hclosed c hc root hcp
  exact habs p hp hpid

/-- In a collection where every resolving parent reference is a folder, a
file-typed item has no descendants at all. -/
theorem file_no_descendants {items : List FileSystemItem}
    (hpf : ∀ i ∈ items, ∀ p ∈ items, i.parentId = some p.id → p.type = ItemType.folder)
    {r : FileSystemItem} (hr : r ∈ items) (hrt : r.type = ItemType.file) (x : String) :
    ¬ Relation.TransGen (Step items) x r.id := by
  intro hchain
  obtain ⟨b, _, hstep⟩ := Relation.TransGen.tail'_iff.mp hchain
  obtain ⟨c, hc, _, hcp⟩ := hstep
  have := hpf c hc r hr hcp
  rw [hrt] at this
  cases this

/-- Subtree membership below a present root decomposes through the root's
direct children. -/
theorem inSubtree_decomp {items : List FileSystemItem} {root : String}
    (i : FileSystemItem) :
    InSubtree items root i ↔
      i.id = root ∨
        ∃ c ∈ items, c.parentId = some root ∧ InSubtree items c.id i := by
  constructor
  · rintro (hid | hchain)
    · exact Or.inl hid
    · obtain ⟨b, hrefl, hstep⟩ := Relation.TransGen.tail'_iff.mp hchain
      obtain ⟨c, hc, hcb, hcp⟩ := hstep
      rcases Relation.reflTransGen_iff_eq_or_transGen.mp hrefl with heq | htg
      · exact Or.inr ⟨c, hc, hcp, Or.inl (heq ▸ hcb.symm ▸ rfl)⟩
      · exact Or.inr ⟨c, hc, hcp, Or.inr (hcb ▸ htg)⟩
  · rintro (hid | ⟨c, hc, hcp, hsub⟩)
    · exact Or.inl hid
    · rcases hsub with hid | hchain
      · exact Or.inr (Relation.TransGen.single ⟨c, hc, hid.symm, hcp⟩)
      · exact Or.inr (hchain.tail ⟨c, hc, rfl, hcp⟩)

/-- A direct child of `root` is never inside the subtree of a distinct
sibling (else the parent chain would contain a cycle through `root`). -/
theorem child_not_in_sibling_subtree {items : List FileSystemItem}
    (hnd : (items.map FileSystemItem.id).Nodup)
    (hacy : ∀ x, ¬ Relation.TransGen (Step items) x x)
    {root : String} {c d : FileSystemItem} (hc : c ∈ items) (hd : d ∈ items)
    (hcp : c.parentId = some root) (hdp : d.parentId = some root) (hne : c ≠ d) :
    ¬ InSubtree items d.id c := by
  rintro (hid | hchain)
  · exact hne (eq_of_id_eq hnd hc hd hid)
  · obtain ⟨b, hstep, hrefl⟩ := Relation.TransGen.head'_iff.mp hchain
    have hb : b = root := by
      have := step_eq_parent hnd hc hstep
      rw [hcp] at this
      exact (Option.some.injEq _ _).mp this.symm
    rw [hb] at hrefl
    have hstep_d : Step items d.id root := ⟨d, hd, rfl, hdp⟩
    rcases Relation.reflTransGen_iff_eq_or_transGen.mp hrefl with heq | htg
    · rw [heq] at hstep_d
      exact hacy root (Relation.TransGen.single hstep_d)
    · exact hacy root (htg.tail hstep_d)

/-- Ancestor chains over the full collection transfer down to the
sub-collection `acc` reached during the deletion fold: `acc` holds exactly
the items that are neither the root nor inside an already-processed sibling
subtree, and a chain from a surviving item to the pending child `c` can only
visit surviving items. -/
theorem chain_transfer {items acc : List FileSystemItem} {root : String}
    (hnd : (items.map FileSystemItem.id).Nodup)
    (hacy : ∀ x, ¬ Relation.TransGen (Step items) x x)
    {done : List FileSystemItem}
    {c : FileSystemItem} (hcmem : c ∈ items) (hcp : c.parentId = some root)
    (hacc : ∀ i, i ∈ acc ↔
      i ∈ items ∧ i.id ≠ root ∧ ∀ d ∈ done, ¬ InSubtree items d.id i)
    {x : String} (hchain : Relation.TransGen (Step items) x c.id) :
    ∀ j ∈ acc, j.id = x → Relation.TransGen (Step acc) x c.id := by
  induction hchain using Relation.TransGen.head_induction_on with
  | base h =>
    rename_i a
    intro j hj hjx
    have hj_items : j ∈ items := ((hacc j).mp hj).1
    obtain ⟨i', hi', hi'id, hi'p⟩ := h
    have : i' = j := eq_of_id_eq hnd hi' hj_items (by rw [hi'id, hjx])
    rw [this] at hi'p
    exact Relation.TransGen.single ⟨j, hj, hjx, hi'p⟩
  | ih hstep hch ihy =>
    rename_i a y
    intro j hj hjx
    have hj_items : j ∈ items := ((hacc j).mp hj).1
    have hjp : j.parentId = some y := by
      apply step_eq_parent hnd hj_items
      rw [hjx]; exact hstep
    -- the next item on the chain
    obtain ⟨b, hstep_y, _⟩ := Relation.TransGen.head'_iff.mp hch
    obtain ⟨k, hk, hkid, _⟩ := hstep_y
    have hy_ne_root : y ≠ root := by
      intro hyr
      rw [hyr] at hch
      exact hacy root (hch.tail ⟨c, hcmem, rfl, hcp⟩)
    have hk_acc : k ∈ acc := by
      rw [hacc]
      refine ⟨hk, by rw [hkid]; exact hy_ne_root, ?_⟩
      intro d hd hsubk
      -- then j itself would be inside the subtree of d, contradicting j ∈ acc
      have hsubj : InSubtree items d.id j := by
        rcases hsubk with hkd | hkchain
        · refine Or.inr (Relation.TransGen.single ⟨j, hj_items, rfl, ?_⟩)
          rw [hjp, ← hkid, hkd]
        · refine Or.inr (Relation.TransGen.head ⟨j, hj_items, rfl, ?_⟩ hkchain)
          rw [hjp, hkid]
      exact ((hacc j).mp hj).2.2 d hd hsubj
    have hrest := ihy k hk_acc hkid
    exact Relation.TransGen.head ⟨j, hj, hjx, hjp⟩ hrest

/-- On surviving items, subtree membership below the pending child agrees
between the sub-collection and the full collection. -/
theorem inSubtree_transfer {items acc : List FileSystemItem} {root : String}
    (hnd : (items.map FileSystemItem.id).Nodup)
    (hacy : ∀ x, ¬ Relation.TransGen (Step items) x x)
    {done : List FileSystemItem}
    {c : FileSystemItem} (hcmem : c ∈ items) (hcp : c.parentId = some root)
    (hacc : ∀ i, i ∈ acc ↔
      i ∈ items ∧ i.id ≠ root ∧ ∀ d ∈ done, ¬ InSubtree items d.id i)
    {j : FileSystemItem} (hj : j ∈ acc) :
    InSubtree acc c.id j ↔ InSubtree items c.id j := by
  constructor
  · rintro (hid | hchain)
    · exact Or.inl hid
    · exact Or.inr (transGen_step_mono (fun i hi => ((hacc i).mp hi).1) hchain)
  · rintro (hid | hchain)
    · exact Or.inl hid
    · exact Or.inr (chain_transfer hnd hacy hcmem hcp hacc hchain j hj rfl)

/-- An `ItemType` that is not `folder` is `file`. -/
theorem itemType_eq_file_of_ne_folder {t : ItemType} (h : t ≠ ItemType.folder) :
    t = ItemType.file := by
  cases t
  · rfl
  · exact absurd rfl h

/-- The invariant of the fold over the root's direct children inside
`deleteItemRecursiveF`: after processing a prefix `done` of the children,
the accumulator holds exactly the items that are neither the root nor in a
processed child's subtree. -/
theorem fold_delete_mem_iff (fuel : Nat)
    (ihf : ∀ (l : List FileSystemItem) (tid : String),
        l.length ≤ fuel → WellFormed l → (∃ q ∈ l, q.id = tid) →
        ∀ i, i ∈ deleteItemRecursiveF fuel l tid ↔ (i ∈ l ∧ ¬ InSubtree l tid i))
    (items : List FileSystemItem) (root : String)
    (wf : WellFormed items) (hlen : items.length ≤ fuel + 1)
    (r : FileSystemItem) (hr : r ∈ items) (hrid : r.id = root) :
    ∀ (cs done acc : List FileSystemItem),
      items.filter (fun i => i.parentId == some root) = done ++ cs →
      List.Sublist acc (items.filter (fun i => !(i.id == root))) →
      (∀ i, i ∈ acc ↔
        i ∈ items ∧ i.id ≠ root ∧ ∀ d ∈ done, ¬ InSubtree items d.id i) →
      ∀ i, i ∈ cs.foldl (fun a c => deleteItemRecursiveF fuel a c.id) acc ↔
        (i ∈ items ∧ i.id ≠ root ∧ ∀ d ∈ done ++ cs, ¬ InSubtree items d.id i) := by
  intro cs
  induction cs with
  | nil =>
    intro done acc hsplit hsub hacc i
    simpa using hacc i
  | cons c cs ihc =>
    intro done acc hsplit hsub hacc i
    simp only [List.foldl_cons]
    have hnodup_items : items.Nodup := List.Nodup.of_map FileSystemItem.id wf.nodupIds
    have hnodup_children : (items.filter (fun i => i.parentId == some root)).Nodup :=
      List.Nodup.sublist (List.filter_sublist items) hnodup_items
    have hc_filter : c ∈ items.filter (fun i => i.parentId == some root) := by
      rw [hsplit]; simp
    have hc_mem : c ∈ items := (List.mem_filter.mp hc_filter).1
    have hc_parent : c.parentId = some root := by
      have := (List.mem_filter.mp hc_filter).2
      simpa using this
    have hdone_mem : ∀ d ∈ done, d ∈ items.filter (fun i => i.parentId == some root) := by
      intro d hd; rw [hsplit]; exact List.mem_append_left _ hd
    have hdone_items : ∀ d ∈ done, d ∈ items :=
      fun d hd => (List.mem_filter.mp (hdone_mem d hd)).1
    have hdone_parent : ∀ d ∈ done, d.parentId = some root := by
      intro d hd
      have := (List.mem_filter.mp (hdone_mem d hd)).2
      simpa using this
    have hc_not_done : c ∉ done := by
      intro hcd
      rw [hsplit] at hnodup_children
      rcases List.nodup_append.mp hnodup_children with ⟨-, -, hdisj⟩
      exact hdisj hcd (List.mem_cons_self c cs)
    have hc_ne_root : c.id ≠ root := by
      intro hcid
      exact wf.acyclic root (Relation.TransGen.single ⟨c, hc_mem, hcid, hc_parent⟩)
    have hc_acc : c ∈ acc := by
      rw [hacc]
      refine ⟨hc_mem, hc_ne_root, ?_⟩
      intro d hd
      exact child_not_in_sibling_subtree wf.nodupIds wf.acyclic hc_mem (hdone_items d hd)
        hc_parent (hdone_parent d hd) (fun hEq => hc_not_done (hEq ▸ hd))
    have hsub_items : List.Sublist acc items := hsub.trans (List.filter_sublist items)
    have wf_acc : WellFormed acc := wellFormed_of_sublist hsub_items wf
    have hlen_acc : acc.length ≤ fuel := by
      have h1 : acc.length ≤ (items.filter (fun i => !(i.id == root))).length :=
        hsub.length_le
      have h2 : (items.filter (fun i => !(i.id == root))).length < items.length := by
        apply List.length_filter_lt_length_iff_exists.mpr
        exact ⟨r, hr, by simp [hrid]⟩
      omega
    have hchar := ihf acc c.id hlen_acc wf_acc ⟨c, hc_acc, rfl⟩
    have hacc' : ∀ j, j ∈ deleteItemRecursiveF fuel acc c.id ↔
        j ∈ items ∧ j.id ≠ root ∧ ∀ d ∈ done ++ [c], ¬ InSubtree items d.id j := by
      intro j
      rw [hchar j]
      constructor
      · rintro ⟨hjacc, hjnot⟩
        obtain ⟨hjitems, hjne, hjall⟩ := (hacc j).mp hjacc
        refine ⟨hjitems, hjne, ?_⟩
        intro d hd
        rcases List.mem_append.mp hd with hdl | hdc
        · exact hjall d hdl
        · rw [List.mem_singleton.mp hdc]
          intro hsubj
          exact hjnot ((inSubtree_transfer wf.nodupIds wf.acyclic hc_mem
            hc_parent hacc hjacc).mpr hsubj)
      · rintro ⟨hjitems, hjne, hjall⟩
        have hjacc : j ∈ acc := by
          rw [hacc]
          exact ⟨hjitems, hjne, fun d hd => hjall d (List.mem_append_left _ hd)⟩
        refine ⟨hjacc, ?_⟩
        intro hsubj
        exact hjall c (List.mem_append_right _ (List.mem_singleton.mpr rfl))
          ((inSubtree_transfer wf.nodupIds wf.acyclic hc_mem
            hc_parent hacc hjacc).mp hsubj)
    have hrec := ihc (done ++ [c]) (deleteItemRecursiveF fuel acc c.id)
      (by rw [List.append_assoc, List.singleton_append]; exact hsplit)
      ((deleteItemRecursiveF_sublist fuel acc c.id).trans hsub)
      hacc' i
    rw [hrec, List.append_assoc, List.singleton_append]

/-- Membership after recursive delete, characterized through `InSubtree`
(with the root present in the collection). -/
theorem deleteItemRecursiveF_mem_iff :
    ∀ (fuel : Nat) (items : List FileSystemItem) (root : String),
      items.length ≤ fuel → WellFormed items → (∃ r ∈ items, r.id = root) →
      ∀ i, i ∈ deleteItemRecursiveF fuel items root ↔
        (i ∈ items ∧ ¬ InSubtree items root i) := by
  intro fuel
  induction fuel with
  | zero =>
    intro items root hlen _ hpres i
    obtain ⟨r, hr, _⟩ := hpres
    rw [List.length_eq_zero.mp (Nat.le_zero.mp hlen)] at hr
    simp at hr
  | succ fuel ihf =>
    intro items root hlen wf hpres i
    obtain ⟨r, hr, hrid⟩ := hpres
    have hfind_ne : items.find? (fun i => i.id == root) ≠ none := by
      intro hnone
      have := List.find?_eq_none.mp hnone r hr
      simp [hrid] at this
    obtain ⟨item, hfind⟩ := Option.ne_none_iff_exists'.mp hfind_ne
    have hitem_mem := List.mem_of_find?_eq_some hfind
    have hitem_id : item.id = root := by simpa using List.find?_some hfind
    simp only [deleteItemRecursiveF, hfind]
    by_cases htype : item.type = ItemType.folder
    · -- folder: fold over the direct children
      simp only [if_pos htype]
      have hmain := fold_delete_mem_iff fuel ihf items root wf hlen r hr hrid
        (items.filter (fun i => i.parentId == some root)) [] _ (by simp)
        (List.Sublist.refl _)
        (by
          intro j
          rw [List.mem_filter]
          simp)
        i
      rw [hmain, inSubtree_decomp i]
      constructor
      · rintro ⟨hmem, hne, hall⟩
        refine ⟨hmem, ?_⟩
        rintro (hid | ⟨c, hc, hcp, hsub⟩)
        · exact hne hid
        · exact hall c (List.mem_filter.mpr ⟨hc, by simp [hcp]⟩) hsub
      · rintro ⟨hmem, hnot⟩
        refine ⟨hmem, fun hid => hnot (Or.inl hid), ?_⟩
        intro d hd hsub
        have hd' := List.mem_filter.mp hd
        exact hnot (Or.inr ⟨d, hd'.1, by simpa using hd'.2, hsub⟩)
    · -- file: the code deletes just the one item, and a file has no
      -- descendants in a well-formed collection
      simp only [if_neg htype]
      rw [List.mem_filter]
      have hfile : item.type = ItemType.file := itemType_eq_file_of_ne_folder htype
      constructor
      · rintro ⟨hmem, hne⟩
        refine ⟨hmem, ?_⟩
        rintro (hid | hchain)
        · simp [hid] at hne
        · rw [← hitem_id] at hchain
          exact file_no_descendants wf.parentsAreFolders hitem_mem hfile _ hchain
      · rintro ⟨hmem, hnot⟩
        refine ⟨hmem, ?_⟩
        simp only [Bool.not_eq_true', beq_eq_false_iff_ne, ne_eq]
        intro hid
        exact hnot (Or.inl hid)

/-- Parent chains are acyclic whenever some rank strictly drops towards the
parent. -/
theorem acyclic_of_rank {items : List FileSystemItem} (rank : String → Nat)
    (hrank : ∀ i ∈ items, rankOkB rank i = true) :
    ∀ x, ¬ Relation.TransGen (Step items) x x := by
  have key : ∀ a b, Relation.TransGen (Step items) a b → rank b < rank a := by
    intro a b h
    induction h with
    | single hs =>
      obtain ⟨i, hi, hic, hip⟩ := hs
      have := hrank i hi
      rw [rankOkB, hip] at this
      rw [← hic]
      exact of_decide_eq_true this
    | tail _ hbc ih =>
      obtain ⟨i, hi, hic, hip⟩ := hbc
      have := hrank i hi
      rw [rankOkB, hip] at this
      have hlt := of_decide_eq_true this
      rw [hic] at hlt
      omega
  intro x hx
  exact absurd (key x x hx) (lt_irrefl _)

theorem parentsClosed_of_b {items : List FileSystemItem}
    (h : parentsClosedB items = true) : ParentsClosed items := by
  intro i hi pid hpid
  have := List.all_eq_true.mp h i hi
  rw [hpid] at this
  obtain ⟨p, hp, hpe⟩ := List.any_eq_true.mp this
  exact ⟨p, hp, by simpa using hpe⟩

/-- C2: in a well-formed, parent-closed collection, `deleteItemRecursive`
removes exactly the target's subtree (the target and every item whose
ancestor chain includes the target id); if no item has the id the collection
is returned unchanged, and repeating the call on an already-removed id is a
no-op. -/
theorem claim_C2_recursive_delete (items : List FileSystemItem) (root : String)
    (wf : WellFormed items) (hclosed : ParentsClosed items) :
    (∀ i, i ∈ deleteItemRecursive items root ↔
        (i ∈ items ∧ ¬ InSubtree items root i)) ∧
    ((∀ i ∈ items, i.id ≠ root) → deleteItemRecursive items root = items) ∧
    deleteItemRecursive (deleteItemRecursive items root) root =
      deleteItemRecursive items root := by
  refine ⟨?_, ?_, deleteItemRecursive_idempotent items root⟩
  · intro i
    by_cases hpres : ∃ q ∈ items, q.id = root
    · exact deleteItemRecursiveF_mem_iff items.length items root le_rfl wf hpres i
    · push_neg at hpres
      rw [deleteItemRecursive, deleteItemRecursiveF_not_found _ _ _ hpres]
      constructor
      · intro hi
        refine ⟨hi, ?_⟩
        rintro (hid | hchain)
        · exact hpres i hi hid
        · exact no_chain_to_absent hclosed hpres _ hchain
      · exact fun h => h.1
  · exact fun h => deleteItemRecursiveF_not_found _ _ _ h

/-- C10: recursive delete only touches the target's subtree; every other item
survives, unchanged and in its original relative order (the result is a
sublist of the input). -/
theorem claim_C10_delete_frame (items : List FileSystemItem) (root : String)
    (wf : WellFormed items) :
    List.Sublist (deleteItemRecursive items root) items ∧
    ∀ i ∈ items, i.id ≠ root → ¬ Relation.TransGen (Step items) i.id root →
      i ∈ deleteItemRecursive items root := by
  refine ⟨deleteItemRecursive_sublist items root, ?_⟩
  intro i hi hne hnc
  by_cases hpres : ∃ q ∈ items, q.id = root
  · rw [deleteItemRecursive,
      deleteItemRecursiveF_mem_iff items.length items root le_rfl wf hpres i]
    refine ⟨hi, ?_⟩
    rintro (hid | hchain)
    · exact hne hid
    · exact hnc hchain
  · push_neg at hpres
    rw [deleteItemRecursive, deleteItemRecursiveF_not_found _ _ _ hpres]
    exact hi

theorem claim_C2_recursive_delete_witness :
    itemN3 ∈ deleteItemRecursive itemsDel "f1" ↔
      (itemN3 ∈ itemsDel ∧ ¬ InSubtree itemsDel "f1" itemN3) :=
  (claim_C2_recursive_delete itemsDel "f1"
    ⟨by decide, by decide, acyclic_of_rank rankDel (by decide)⟩
    (parentsClosed_of_b (by decide))).1 itemN3

theorem claim_C10_delete_frame_witness :
    List.Sublist (deleteItemRecursive itemsDel "g1") itemsDel :=
  (claim_C10_delete_frame itemsDel "g1"
    ⟨by decide, by decide, acyclic_of_rank rankDel (by decide)⟩).1

/-- C8: `childrenOf(parentId)` (i.e. `getChildItems`) returns exactly the
items whose `parentId` equals the argument, ordered folders-first and, within
a kind, alphabetically by name; as a pure function of its inputs it is
deterministic. -/
theorem claim_C8_childrenOf (items : List FileSystemItem) (parentId : Option String) :
    (∀ x, x ∈ getChildItems items parentId ↔ (x ∈ items ∧ x.parentId = parentId)) ∧
    List.Pairwise (fun a b =>
      (a.type = ItemType.file → b.type = ItemType.file) ∧
      (a.type = b.type → a.name ≤ b.name)) (getChildItems items parentId) := by
  constructor
  · intro x
    rw [getChildItems, sortFileSystem,
      (List.perm_insertionSort FsLeR
        (items.filter (fun i => i.parentId == parentId))).mem_iff,
      List.mem_filter]
    simp
  · have hsorted := List.sorted_insertionSort FsLeR
      (items.filter (fun i => i.parentId == parentId))
    apply hsorted.imp
    intro a b hab
    rw [FsLeR, fsLe] at hab
    constructor
    · intro haf
      by_cases h : a.type = b.type
      · rw [← h]; exact haf
      · rw [if_neg h] at hab
        have := of_decide_eq_true hab
        rw [haf] at this
        cases this
    · intro h
      rw [if_pos h] at hab
      exact of_decide_eq_true hab

/-- C1: evaluating the code on the failing input.  The note's read fails, but
the source merely `continue`s past that one file instead of excluding the
scope: the scan still classifies the asset as orphaned, and the cleanup pass
deletes it.  This contradicts the claim that the scope is excluded and such
an asset survives the pass. -/
theorem claim_C1_code_behavior :
    scanFolderForOrphanedImages true diskFailAll none itemsC1 = [imgC1] ∧
    (handleCleanupAssets true diskFailAll (fun _ => true) itemsC1).1 = [noteC1] ∧
    (handleCleanupAssets true diskFailAll (fun _ => true) itemsC1).2 = 1 := by
  decide

theorem strFoldl_append (l : List String) :
    ∀ s : String, l.foldl (fun a b => a ++ b) s = s ++ l.foldl (fun a b => a ++ b) "" := by
  induction l with
  | nil => intro s; simp [String.append_empty]
  | cons a l ih =>
    intro s
    simp only [List.foldl_cons]
    rw [ih (s ++ a), ih ("" ++ a), String.empty_append, String.append_assoc]

theorem strJoin_cons (a : String) (l : List String) :
    String.join (a :: l) = a ++ String.join l := by
  simp only [String.join, List.foldl_cons]
  rw [strFoldl_append l ("" ++ a), String.empty_append]

/-- On a list of loaded notes the corpus built by `getMarkdownFilesContent`
is the newline-terminated concatenation of the notes' contents. -/
theorem getMarkdownFilesContent_eq_join (isLocalMode : Bool)
    (disk : String → Option String) (mdFiles : List FileSystemItem)
    (h : ∀ md ∈ mdFiles, md.isLoaded = true) :
    getMarkdownFilesContent isLocalMode disk mdFiles =
      String.join (mdFiles.map (fun md => md.content.getD "" ++ "\n")) := by
  rw [getMarkdownFilesContent]
  have main : ∀ (l : List FileSystemItem), (∀ md ∈ l, md.isLoaded = true) →
      ∀ acc : String,
      l.foldl (fun combined md =>
        if isLocalMode && md.hasHandle && !md.isLoaded then
          match disk md.id with
          | some text => combined ++ text ++ "\n"
          | none => combined
        else combined ++ (md.content.getD "") ++ "\n") acc =
      acc ++ String.join (l.map (fun md => md.content.getD "" ++ "\n")) := by
    intro l
    induction l with
    | nil => intro _ acc; simp [String.join, String.append_empty]
    | cons md l ih =>
      intro hl acc
      have hmd : md.isLoaded = true := hl md (by simp)
      simp only [List.foldl_cons, List.map_cons, hmd, Bool.not_true, Bool.and_false,
        Bool.false_eq_true, if_false, strJoin_cons]
      rw [ih (fun x hx => hl x (by simp [hx])) (acc ++ md.content.getD "" ++ "\n")]
      simp [String.append_assoc]
  exact main mdFiles h ""

/-- C3 (amended): in a scope whose `.md` note files' contents are all loaded
(other items, the scanned assets included, may be unloaded), an item is
reported orphaned iff it belongs to the scope, its name matches the
image-extension set, and its name does not occur as a literal substring of
the scope's scan corpus — the concatenation of the note contents, each
terminated by a newline (not the plain concatenation of the claim). -/
theorem claim_C3_amended_orphan_iff (isLocalMode : Bool)
    (disk : String → Option String) (folderId : Option String)
    (allFiles : List FileSystemItem)
    (hloaded : ∀ i ∈ allFiles, i.parentId = folderId →
      isMarkdownName i.name = true → i.isLoaded = true)
    (img : FileSystemItem) :
    img ∈ scanFolderForOrphanedImages isLocalMode disk folderId allFiles ↔
      (img ∈ allFiles ∧ img.parentId = folderId ∧ isImageName img.name = true ∧
        strContains (loadedNoteCorpus folderId allFiles) img.name = false) := by
  have hcorpus : getMarkdownFilesContent isLocalMode disk
      ((allFiles.filter (fun i => i.parentId == folderId)).filter
        (fun i => isMarkdownName i.name)) = loadedNoteCorpus folderId allFiles := by
    rw [loadedNoteCorpus]
    apply getMarkdownFilesContent_eq_join
    intro md hmd
    obtain ⟨h1, hmdname⟩ := List.mem_filter.mp hmd
    obtain ⟨hmem, hpid⟩ := List.mem_filter.mp h1
    exact hloaded md hmem (by simpa using hpid) hmdname
  simp only [scanFolderForOrphanedImages]
  split
  · rename_i hempty
    rw [List.isEmpty_iff] at hempty
    simp only [List.not_mem_nil, false_iff]
    rintro ⟨hmem, hpid, himg, -⟩
    have : img ∈ (allFiles.filter (fun i => i.parentId == folderId)).filter
        (fun i => isImageName i.name) := by
      rw [List.mem_filter, List.mem_filter]
      exact ⟨⟨hmem, by simp [hpid]⟩, himg⟩
    rw [hempty] at this
    simp at this
  · rw [hcorpus, List.mem_filter, List.mem_filter, List.mem_filter]
    constructor
    · rintro ⟨⟨⟨hmem, hpid⟩, himg⟩, href⟩
      refine ⟨hmem, by simpa using hpid, himg, ?_⟩
      simpa [isImageReferenced] using href
    · rintro ⟨hmem, hpid, himg, href⟩
      exact ⟨⟨⟨hmem, by simp [hpid]⟩, himg⟩, by simpa [isImageReferenced] using href⟩

/-- C3 counterexample: the asset's name occurs in the claim's plain
concatenation of the scope's note contents, yet the scan classifies the
asset as orphaned — refuting the claimed "if and only if" as stated. -/
theorem claim_C3_counterexample :
    strContains (claimNoteConcat none itemsC3) "img.png" = true ∧
    scanFolderForOrphanedImages false diskFailAll none itemsC3 = [imgC3] := by
  decide

theorem claim_C3_amended_witness :
    imgC3 ∈ scanFolderForOrphanedImages false diskFailAll none itemsC3 ↔
      (imgC3 ∈ itemsC3 ∧ imgC3.parentId = none ∧ isImageName imgC3.name = true ∧
        strContains (loadedNoteCorpus none itemsC3) imgC3.name = false) :=
  claim_C3_amended_orphan_iff false diskFailAll none itemsC3 (by decide) imgC3

/-- Everything the scan reports belongs to the scanned scope and has an
image-extension name. -/
theorem mem_scan_scope (isLocalMode : Bool) (disk : String → Option String)
    (folderId : Option String) (allFiles : List FileSystemItem)
    (o : FileSystemItem)
    (ho : o ∈ scanFolderForOrphanedImages isLocalMode disk folderId allFiles) :
    o ∈ allFiles ∧ o.parentId = folderId ∧ isImageName o.name = true := by
  simp only [scanFolderForOrphanedImages] at ho
  split at ho
  · simp at ho
  · have h1 := List.mem_filter.mp ho
    have h2 := List.mem_filter.mp h1.1
    have h3 := List.mem_filter.mp h2.1
    exact ⟨h3.1, by simpa using h3.2, h2.2⟩

/-- Deleting a file-typed item (with unique ids) is a plain single-item
filter: the recursion never descends. -/
theorem delete_file_eq_filter (items : List FileSystemItem) (o : FileSystemItem)
    (hmem : o ∈ items) (hnd : (items.map FileSystemItem.id).Nodup)
    (hfile : o.type = ItemType.file) :
    deleteItemRecursive items o.id = items.filter (fun i => !(i.id == o.id)) := by
  cases hlen : items.length with
  | zero =>
    rw [List.length_eq_zero.mp hlen] at hmem
    simp at hmem
  | succ n =>
    rw [deleteItemRecursive, hlen]
    have hfind_ne : items.find? (fun i => i.id == o.id) ≠ none := by
      intro hnone
      have := List.find?_eq_none.mp hnone o hmem
      simp at this
    obtain ⟨it, hit⟩ := Option.ne_none_iff_exists'.mp hfind_ne
    have hid : it.id = o.id := by simpa using List.find?_some hit
    have heq : it = o := eq_of_id_eq hnd (List.mem_of_find?_eq_some hit) hmem hid
    simp only [deleteItemRecursiveF, hit, heq]
    rw [if_neg (by rw [hfile]; intro h; cases h)]

/-- C4 (amended): a file-typed orphan has no descendants in a collection
whose resolving parent references are folders with unique ids, and its
cleanup deletion degenerates to a single-item filter.  (The restriction to
file-typed orphans is forced: the scan classifies by name only, so a folder
whose name carries an image extension can be reported orphaned and is then
deleted together with its whole subtree, see the counterexample.) -/
theorem claim_C4_amended_file_orphans (isLocalMode : Bool)
    (disk : String → Option String) (folderId : Option String)
    (items : List FileSystemItem) (o : FileSystemItem)
    (ho : o ∈ scanFolderForOrphanedImages isLocalMode disk folderId items)
    (hfile : o.type = ItemType.file)
    (hnd : (items.map FileSystemItem.id).Nodup)
    (hpf : ∀ i ∈ items, ∀ p ∈ items, i.parentId = some p.id → p.type = ItemType.folder) :
    (∀ x, ¬ Relation.TransGen (Step items) x o.id) ∧
    deleteItemRecursive items o.id = items.filter (fun i => !(i.id == o.id)) := by
  have hmem := (mem_scan_scope isLocalMode disk folderId items o ho).1
  exact ⟨file_no_descendants hpf hmem hfile,
    delete_file_eq_filter items o hmem hnd hfile⟩

/-- C4 counterexample: the scan classifies the folder "pics.png" as orphaned
although it has a child, and the cleanup pass then deletes the child too —
refuting "every item classified orphaned has no descendants" and the claimed
degeneration to single-item deletion. -/
theorem claim_C4_counterexample :
    scanFolderForOrphanedImages false diskFailAll none itemsC4 = [folderC4] ∧
    noteC4 ∈ itemsC4 ∧ noteC4.parentId = some folderC4.id ∧
    (handleCleanupAssets false diskFailAll (fun _ => true) itemsC4).1 = [] := by
  decide

theorem claim_C4_amended_witness :
    deleteItemRecursive itemsC4w imgC4w.id =
      itemsC4w.filter (fun i => !(i.id == imgC4w.id)) :=
  (claim_C4_amended_file_orphans false diskFailAll none itemsC4w imgC4w
    (by decide) (by decide) (by decide) (by decide)).2

/-- C5: evaluating the code on the failing inputs.  Memory mode, two
orphaned assets: the scan reports both, the trigger reports a count of 2,
yet only the second asset is removed — each `handleDeleteItem` call rebuilds
the collection from the stale render-time snapshot and the last
`setFileSystem` wins, so the first orphan survives the pass.  Disk mode, one
orphan whose physical deletion fails: count 1 with the collection unchanged.
Both runs refute the claim's "a count equal to the number of assets actually
deleted". -/
theorem claim_C5_code_behavior :
    scanAllOrphans false diskFailAll itemsC5two = [imgC5a, imgC5b] ∧
    handleCleanupAssets false diskFailAll (fun _ => true) itemsC5two =
      ([imgC5a], 2) ∧
    handleCleanupAssets true diskFailAll (fun _ => false) itemsC5 =
      (itemsC5, 1) := by
  decide


/-- C7: in disk mode, a failing physical operation aborts each structural
mutation (create, rename, delete) with the in-memory collection unchanged.
For rename and delete a physical operation is attempted exactly when the
item has a backend handle. -/
theorem claim_C7_disk_failure_aborts (fs : List FileSystemItem) :
    (∀ (t : ItemType) (pid : Option String) (nid : String) (now : Nat),
      handleCreateItem true false t pid nid now fs = fs) ∧
    (∀ (id newName : String) (now : Nat) (item : FileSystemItem),
      fs.find? (fun i => i.id == id) = some item → item.hasHandle = true →
      handleRenameItem true false fs id newName now = fs) ∧
    (∀ (id : String) (item : FileSystemItem),
      fs.find? (fun i => i.id == id) = some item → item.hasHandle = true →
      handleDeleteItem true (fun _ => false) fs id = fs) := by
  refine ⟨?_, ?_, ?_⟩
  · intro t pid nid now
    simp [handleCreateItem]
  · intro id newName now item hfind hhandle
    simp only [handleRenameItem, hfind]
    split
    · rfl
    · split
      · rfl
      · split
        · rfl
        · rw [if_pos (by simp [hhandle])]
  · intro id item hfind hhandle
    simp [handleDeleteItem, hfind, hhandle]

theorem claim_C7_disk_failure_aborts_witness :
    handleRenameItem true false itemsC7 "n1" "b.md" 7 = itemsC7 :=
  (claim_C7_disk_failure_aborts itemsC7).2.1 "n1" "b.md" 7
    { id := "n1", parentId := none, name := "a.md", type := ItemType.file,
      hasHandle := true, isLoaded := true }
    (by decide) (by decide)

theorem toDigitsCore_append (b : Nat) :
    ∀ (fuel n : Nat) (ds : List Char),
      Nat.toDigitsCore b fuel n ds = Nat.toDigitsCore b fuel n [] ++ ds := by
  intro fuel
  induction fuel with
  | zero => intro n ds; simp [Nat.toDigitsCore]
  | succ fuel ih =>
    intro n ds
    simp only [Nat.toDigitsCore]
    by_cases h : n / b = 0
    · simp [h]
    · rw [if_neg h, if_neg h, ih (n / b) (Nat.digitChar (n % b) :: ds),
        ih (n / b) [Nat.digitChar (n % b)]]
      simp

theorem digitVal_digitChar {m : Nat} (h : m < 10) :
    digitVal (Nat.digitChar m) = m := by
  interval_cases m <;> decide

theorem ofDigits_append_one (l : List Char) (c : Char) :
    ofDigits (l ++ [c]) = ofDigits l * 10 + digitVal c := by
  simp [ofDigits, List.foldl_append]

theorem ofDigits_toDigitsCore :
    ∀ (n fuel : Nat), n < fuel → ofDigits (Nat.toDigitsCore 10 fuel n []) = n := by
  intro n
  induction n using Nat.strong_induction_on with
  | _ n ih =>
    intro fuel hfuel
    cases fuel with
    | zero => omega
    | succ fuel =>
      simp only [Nat.toDigitsCore]
      by_cases h : n / 10 = 0
      · rw [if_pos h]
        have hn : n < 10 := by omega
        have hmod : n % 10 = n := Nat.mod_eq_of_lt hn
        rw [hmod]
        simp [ofDigits, digitVal_digitChar hn]
      · rw [if_neg h]
        rw [toDigitsCore_append 10 fuel (n / 10) [Nat.digitChar (n % 10)]]
        rw [ofDigits_append_one]
        have hlt : n / 10 < n := Nat.div_lt_self (by omega) (by omega)
        rw [ih (n / 10) hlt fuel (by omega),
          digitVal_digitChar (Nat.mod_lt n (by omega))]
        have := Nat.div_add_mod n 10
        omega

theorem natRepr_injective : Function.Injective Nat.repr := by
  intro m n h
  have hm : ofDigits (Nat.toDigits 10 m) = m :=
    ofDigits_toDigitsCore m (m + 1) (Nat.lt_succ_self m)
  have hn : ofDigits (Nat.toDigits 10 n) = n :=
    ofDigits_toDigitsCore n (n + 1) (Nat.lt_succ_self n)
  have hdata : Nat.toDigits 10 m = Nat.toDigits 10 n := by
    have h2 : (Nat.toDigits 10 m).asString = (Nat.toDigits 10 n).asString := h
    have := congrArg String.data h2
    simpa [List.asString] using this
  rw [← hm, ← hn, hdata]

theorem toDigits_ne_nil (b n : Nat) : Nat.toDigits b n ≠ [] := by
  simp only [Nat.toDigits, Nat.toDigitsCore]
  by_cases h : n / b = 0
  · simp [h]
  · rw [if_neg h, toDigitsCore_append]
    simp

theorem natRepr_data_ne_nil (n : Nat) : (Nat.repr n).data ≠ [] := by
  have : (Nat.repr n).data = Nat.toDigits 10 n := by
    simp [Nat.repr, List.asString]
  rw [this]
  exact toDigits_ne_nil 10 n

theorem numberedName_injective (stem ext : String) :
    Function.Injective (numberedName stem ext) := by
  intro c1 c2 h
  apply natRepr_injective
  apply String.ext
  have hd := congrArg String.data h
  simp only [numberedName, String.data_append, List.append_assoc] at hd
  have h1 := List.append_cancel_left hd
  have h2 := List.append_cancel_left h1
  have h2x : (c1.repr.data ++ [')']) ++ ext.data = (c2.repr.data ++ [')']) ++ ext.data := by
    rw [List.append_assoc, List.append_assoc]
    exact h2
  have h3 := List.append_cancel_right h2x
  exact List.append_cancel_right h3

theorem numberedName_ne_base (stem ext : String) (c : Nat) :
    numberedName stem ext c ≠ stem ++ ext := by
  intro h
  have hlen := congrArg (fun s => s.data.length) h
  simp only [numberedName, String.data_append, List.length_append] at hlen
  have hpos : 0 < (Nat.repr c).data.length :=
    List.length_pos.mpr (natRepr_data_ne_nil c)
  simp at hlen
  omega

/-- If some tried candidate is free, the loop returns a free name. -/
theorem uniqueNameF_not_taken (taken : String → Bool) (mk : Nat → String) :
    ∀ (fuel count : Nat) (name : String),
      (taken name = false ∨
        ∃ c, count ≤ c ∧ c < count + fuel ∧ taken (mk c) = false) →
      taken (uniqueNameF taken mk fuel count name) = false := by
  intro fuel
  induction fuel with
  | zero =>
    intro count name h
    rcases h with h | ⟨c, h1, h2, -⟩
    · simpa [uniqueNameF] using h
    · omega
  | succ fuel ih =>
    intro count name h
    rw [uniqueNameF]
    by_cases ht : taken name
    · rw [if_pos ht]
      apply ih
      rcases h with h | ⟨c, h1, h2, h3⟩
      · rw [ht] at h; cases h
      · by_cases hc : c = count
        · left; rw [← hc]; exact h3
        · right; exact ⟨c, by omega, by omega, h3⟩
    · rw [if_neg ht]
      simpa using ht

/-- A duplicate-free list whose members all occur in another list is no
longer than it. -/
theorem nodup_subset_length {α : Type} [DecidableEq α] {l1 l2 : List α}
    (hnd : l1.Nodup) (hsub : ∀ x ∈ l1, x ∈ l2) : l1.length ≤ l2.length := by
  have h1 : l1.toFinset.card = l1.length := List.toFinset_card_of_nodup hnd
  have h2 : l1.toFinset ⊆ l2.toFinset := by
    intro x hx
    rw [List.mem_toFinset] at hx ⊢
    exact hsub x hx
  have h3 := Finset.card_le_card h2
  have h4 := List.toFinset_card_le l2
  omega

/-- Pigeonhole over the candidate names: with `fs.length + 2` numbered
candidates besides the base name, some candidate is not a sibling name. -/
theorem exists_free_candidate (fs : List FileSystemItem) (parentId : Option String)
    (stem ext : String) :
    (fs.any (fun i => i.parentId == parentId && i.name == stem ++ ext)) = false ∨
    ∃ c, 1 ≤ c ∧ c < 1 + (fs.length + 2) ∧
      (fs.any (fun i => i.parentId == parentId && i.name == numberedName stem ext c))
        = false := by
  by_contra hcon
  push_neg at hcon
  obtain ⟨hbase, hnum⟩ := hcon
  have hbase' : (fs.any (fun i => i.parentId == parentId && i.name == stem ++ ext))
      = true := by
    cases hb : fs.any (fun i => i.parentId == parentId && i.name == stem ++ ext)
    · exact absurd hb hbase
    · rfl
  have hnum' : ∀ c, 1 ≤ c → c < fs.length + 3 →
      (fs.any (fun i => i.parentId == parentId && i.name == numberedName stem ext c))
        = true := by
    intro c h1 h2
    cases hb : fs.any (fun i => i.parentId == parentId && i.name == numberedName stem ext c)
    · exact absurd hb (hnum c h1 (by omega))
    · rfl
  -- the tried candidates
  have hcands_sub : ∀ s ∈ (stem ++ ext) ::
      (List.range' 1 (fs.length + 2)).map (numberedName stem ext),
      s ∈ (fs.filter (fun i => i.parentId == parentId)).map FileSystemItem.name := by
    intro s hs
    rcases List.mem_cons.mp hs with rfl | hs
    · obtain ⟨i, hi, hcond⟩ := List.any_eq_true.mp hbase'
      rw [Bool.and_eq_true] at hcond
      refine List.mem_map.mpr ⟨i, List.mem_filter.mpr ⟨hi, hcond.1⟩, ?_⟩
      have := hcond.2
      simpa using this.symm
    · obtain ⟨c, hc, rfl⟩ := List.mem_map.mp hs
      rw [List.mem_range'_1] at hc
      obtain ⟨i, hi, hcond⟩ := List.any_eq_true.mp (hnum' c hc.1 (by omega))
      rw [Bool.and_eq_true] at hcond
      refine List.mem_map.mpr ⟨i, List.mem_filter.mpr ⟨hi, hcond.1⟩, ?_⟩
      have := hcond.2
      simpa using this.symm
  have hcands_nodup : ((stem ++ ext) ::
      (List.range' 1 (fs.length + 2)).map (numberedName stem ext)).Nodup := by
    rw [List.nodup_cons]
    constructor
    · intro hmem
      obtain ⟨c, -, hc⟩ := List.mem_map.mp hmem
      exact numberedName_ne_base stem ext c hc
    · exact ((List.nodup_range' 1 (fs.length + 2)).map
        (numberedName_injective stem ext))
  have hlen := nodup_subset_length hcands_nodup hcands_sub
  have hlen2 : (fs.filter (fun i => i.parentId == parentId)).length ≤ fs.length :=
    (List.filter_sublist fs).length_le
  simp only [List.length_cons, List.length_map, List.length_range'] at hlen
  omega

/-- The name chosen by `generateUniqueFileName` never collides exactly with a
sibling name. -/
theorem generateUniqueFileName_not_taken (fs : List FileSystemItem)
    (fileName : String) (parentId : Option String) :
    (fs.any (fun i => i.parentId == parentId &&
      i.name == generateUniqueFileName fs fileName parentId)) = false := by
  rw [generateUniqueFileName]
  have hsplit : (splitAtLastDot fileName).1 ++ (splitAtLastDot fileName).2 = fileName := by
    rw [splitAtLastDot]
    split
    · exact String.append_empty fileName
    · dsimp only
      split
      · apply String.ext
        rw [String.data_append]
        exact List.take_append_drop _ fileName.data
      · exact String.append_empty fileName
  refine uniqueNameF_not_taken
    (fun name => fs.any (fun i => i.parentId == parentId && i.name == name))
    (numberedName (splitAtLastDot fileName).1 (splitAtLastDot fileName).2)
    (fs.length + 2) 1 fileName ?_
  rcases exists_free_candidate fs parentId (splitAtLastDot fileName).1
      (splitAtLastDot fileName).2 with h | h
  · left; rw [← hsplit]; exact h
  · right; exact h

/-- The name chosen by `handleCreateItem` never collides exactly with a
sibling name. -/
theorem createUniqueName_not_taken (isLocalMode : Bool) (t : ItemType)
    (fs : List FileSystemItem) (parentId : Option String) :
    (fs.any (fun i => i.parentId == parentId &&
      i.name == createUniqueName isLocalMode t fs parentId)) = false := by
  rw [createUniqueName]
  refine uniqueNameF_not_taken
    (fun name => fs.any (fun i => i.parentId == parentId && i.name == name))
    (numberedName (createBaseName isLocalMode t).1 (createBaseName isLocalMode t).2)
    (fs.length + 2) 1
    ((createBaseName isLocalMode t).1 ++ (createBaseName isLocalMode t).2) ?_
  rcases exists_free_candidate fs parentId (createBaseName isLocalMode t).1
      (createBaseName isLocalMode t).2 with h | h
  · left; exact h
  · right; exact h

theorem siblingNamesOk_ids_nodup {fs : List FileSystemItem}
    (h : SiblingNamesOk fs) : (fs.map FileSystemItem.id).Nodup :=
  List.pairwise_map.mpr (h.imp (fun hab => hab.1))

theorem siblingNamesOk_append {fs : List FileSystemItem} (x : FileSystemItem)
    (h : SiblingNamesOk fs) (hid : ∀ i ∈ fs, i.id ≠ x.id)
    (hname : ∀ i ∈ fs, i.parentId = x.parentId → i.name ≠ x.name) :
    SiblingNamesOk (fs ++ [x]) := by
  rw [SiblingNamesOk, List.pairwise_append]
  refine ⟨h, List.pairwise_singleton _ _, ?_⟩
  intro a ha b hb
  rw [List.mem_singleton] at hb
  subst hb
  exact ⟨hid a ha, hname a ha⟩

theorem siblingNamesOk_map_preserve {fs : List FileSystemItem}
    (f : FileSystemItem → FileSystemItem)
    (hf : ∀ i, (f i).id = i.id ∧ (f i).parentId = i.parentId ∧ (f i).name = i.name)
    (h : SiblingNamesOk fs) : SiblingNamesOk (fs.map f) := by
  rw [SiblingNamesOk, List.pairwise_map]
  apply h.imp
  intro a b hab
  obtain ⟨ha1, ha2, ha3⟩ := hf a
  obtain ⟨hb1, hb2, hb3⟩ := hf b
  rw [ha1, hb1, ha2, hb2, ha3, hb3]
  exact hab

theorem handleCreateItem_preserves (lm ok : Bool) (t : ItemType)
    (pid : Option String) (nid : String) (now : Nat) (fs : List FileSystemItem)
    (h : SiblingNamesOk fs) (hfresh : FreshId fs nid) :
    SiblingNamesOk (handleCreateItem lm ok t pid nid now fs) := by
  rw [handleCreateItem]
  split
  · exact h
  · dsimp only
    have hfree := createUniqueName_not_taken lm t fs pid
    have hname : ∀ i ∈ fs, i.parentId = pid → i.name ≠ createUniqueName lm t fs pid := by
      intro i hi hp hn
      have : (fs.any (fun i => i.parentId == pid &&
          i.name == createUniqueName lm t fs pid)) = true :=
        List.any_eq_true.mpr ⟨i, hi, by simp [hp, hn]⟩
      rw [hfree] at this
      cases this
    have happ : ∀ cnt : Option String,
        SiblingNamesOk (fs ++
          [{ id := nid, parentId := pid, name := createUniqueName lm t fs pid,
             type := t, content := cnt, createdAt := now, updatedAt := now,
             isOpen := true, isLoaded := true, hasHandle := lm }]) := by
      intro cnt
      exact siblingNamesOk_append
        { id := nid, parentId := pid, name := createUniqueName lm t fs pid,
          type := t, content := cnt, createdAt := now, updatedAt := now,
          isOpen := true, isLoaded := true, hasHandle := lm }
        h (fun i hi => hfresh i hi) hname
    split
    · split
      · apply siblingNamesOk_map_preserve _ ?_ (happ _)
        intro i
        refine ⟨?_, ?_, ?_⟩ <;> dsimp only <;> split <;> rfl
      · exact happ _
    · exact happ _

theorem handleImageUpload_preserves (lm ok : Bool) (fs : List FileSystemItem)
    (pid : Option String) (fileName dataUri nid : String) (now : Nat)
    (h : SiblingNamesOk fs) (hfresh : FreshId fs nid) :
    SiblingNamesOk (handleImageUpload lm ok fs pid fileName dataUri nid now) := by
  rw [handleImageUpload]
  split
  · exact h
  · split
    · exact h
    · have hfree := generateUniqueFileName_not_taken fs fileName pid
      have hname : ∀ i ∈ fs, i.parentId = pid →
          i.name ≠ generateUniqueFileName fs fileName pid := by
        intro i hi hp hn
        have : (fs.any (fun i => i.parentId == pid &&
            i.name == generateUniqueFileName fs fileName pid)) = true :=
          List.any_eq_true.mpr ⟨i, hi, by simp [hp, hn]⟩
        rw [hfree] at this
        cases this
      exact siblingNamesOk_append
        { id := nid, parentId := pid, name := generateUniqueFileName fs fileName pid,
          type := ItemType.file,
          content := if lm then none else some dataUri,
          createdAt := now, updatedAt := now, isOpen := false,
          hasHandle := lm, isLoaded := true }
        h (fun i hi => hfresh i hi) hname

theorem handleRenameItem_preserves (lm ok : Bool) (fs : List FileSystemItem)
    (id newName : String) (now : Nat)
    (h : SiblingNamesOk fs) (htrim : strTrim newName = newName) :
    SiblingNamesOk (handleRenameItem lm ok fs id newName now) := by
  rw [handleRenameItem]
  split
  · exact h
  · cases hfind : fs.find? (fun i => i.id == id) with
    | none => dsimp only; exact h
    | some item =>
      dsimp only
      have hitem_mem := List.mem_of_find?_eq_some hfind
      have hitem_id : item.id = id := by simpa using List.find?_some hfind
      by_cases hsame : (item.name == newName) = true
      · rw [if_pos hsame]; exact h
      · rw [if_neg hsame]
        by_cases hdup : (fs.any (fun i => i.parentId == item.parentId &&
            !(i.id == id) && strToLower i.name == strToLower (strTrim newName))) = true
        · rw [if_pos hdup]; exact h
        · rw [if_neg hdup]
          by_cases hphys : (lm && item.hasHandle && !ok) = true
          · rw [if_pos hphys]; exact h
          · rw [if_neg hphys]
            have hnodup := siblingNamesOk_ids_nodup h
            have hok : ∀ b ∈ fs, b.id ≠ id → b.parentId = item.parentId →
                b.name ≠ newName := by
              intro b hb hbid hbp hbn
              apply hdup
              apply List.any_eq_true.mpr
              refine ⟨b, hb, ?_⟩
              rw [htrim, hbn]
              simp [hbp, hbid]
            rw [SiblingNamesOk, List.pairwise_map]
            apply List.Pairwise.imp_of_mem ?_ h
            intro a b ha hb hab
            by_cases hA : (a.id == id) = true <;> by_cases hB : (b.id == id) = true
            · exfalso
              apply hab.1
              rw [beq_iff_eq] at hA hB
              rw [hA, hB]
            · dsimp only
              rw [if_pos hA, if_neg hB]
              rw [beq_iff_eq] at hA
              have haitem : a = item := eq_of_id_eq hnodup ha hitem_mem
                (by rw [hA, hitem_id])
              constructor
              · intro hEq
                exact hab.1 hEq
              · intro hp hn
                have hp2 : a.parentId = b.parentId := hp
                have hn2 : newName = b.name := hn
                refine hok b hb (by simpa using hB) ?_ hn2.symm
                rw [← haitem]
                exact hp2.symm
            · dsimp only
              rw [if_neg hA, if_pos hB]
              rw [beq_iff_eq] at hB
              have hbitem : b = item := eq_of_id_eq hnodup hb hitem_mem
                (by rw [hB, hitem_id])
              constructor
              · intro hEq
                exact hab.1 hEq
              · intro hp hn
                have hp2 : a.parentId = b.parentId := hp
                have hn2 : a.name = newName := hn
                refine hok a ha (by simpa using hA) ?_ hn2
                rw [← hbitem]
                exact hp2
            · dsimp only
              rw [if_neg hA, if_neg hB]
              exact hab

theorem reachableVFS_sibling_invariant (fs : List FileSystemItem)
    (h : ReachableVFS fs) : SiblingNamesOk fs := by
  induction h with
  | init => exact List.Pairwise.nil
  | create fs lm ok t pid nid now hr hfresh ih =>
    exact handleCreateItem_preserves lm ok t pid nid now fs ih hfresh
  | rename fs lm ok id newName now hr htrim ih =>
    exact handleRenameItem_preserves lm ok fs id newName now ih htrim
  | upload fs lm ok pid fileName dataUri nid now hr hfresh ih =>
    exact handleImageUpload_preserves lm ok fs pid fileName dataUri nid now ih hfresh

/-- C6 (amended): in every state reachable through create, rename and image
upload — with fresh generated ids and trimmed rename inputs, as the UI
supplies — sibling names are pairwise distinct under exact (case-sensitive)
comparison.  Case-insensitive uniqueness does not hold (the create and
upload collision checks compare with `===`), see the counterexample. -/
theorem claim_C6_amended_sibling_names (fs : List FileSystemItem)
    (h : ReachableVFS fs) :
    List.Pairwise (fun i j => i.parentId = j.parentId → i.name ≠ j.name) fs :=
  (reachableVFS_sibling_invariant fs h).imp (fun hab => hab.2)

/-- C6 counterexample: a reachable state holding two root-scope siblings
"cat.png" and "CAT.png", equal under case-insensitive comparison — the
upload collision check is exact, so the claimed case-insensitive uniqueness
fails. -/
theorem claim_C6_counterexample :
    ReachableVFS itemsC6bad ∧
    ∃ i ∈ itemsC6bad, ∃ j ∈ itemsC6bad, ¬(i = j) ∧ i.parentId = j.parentId ∧
      strToLower i.name = strToLower j.name := by
  constructor
  · exact ReachableVFS.upload _ false true none "CAT.png" "d" "i2" 1
      (ReachableVFS.upload _ false true none "cat.png" "d" "i1" 0
        ReachableVFS.init (by decide))
      (by decide)
  · decide

theorem claim_C6_amended_witness :
    List.Pairwise (fun i j => i.parentId = j.parentId → i.name ≠ j.name)
      itemsC6bad :=
  claim_C6_amended_sibling_names itemsC6bad
    (ReachableVFS.upload _ false true none "CAT.png" "d" "i2" 1
      (ReachableVFS.upload _ false true none "cat.png" "d" "i1" 0
        ReachableVFS.init (by decide))
      (by decide))

/-- Membership in `getChildItems`. -/
theorem mem_getChildItems (items : List FileSystemItem) (parentId : Option String)
    (x : FileSystemItem) :
    x ∈ getChildItems items parentId ↔ (x ∈ items ∧ x.parentId = parentId) := by
  rw [getChildItems, sortFileSystem,
    (List.perm_insertionSort FsLeR
      (items.filter (fun i => i.parentId == parentId))).mem_iff,
    List.mem_filter]
  simp

/-- Any ancestor chain yields a depth-bounded descent, the bound given by a
rank function that drops across parent edges. -/
theorem transGen_descendsWithin {items : List FileSystemItem}
    (rank : String → Nat) (hrank : ∀ i ∈ items, rankOkB rank i = true)
    {x top : String} (h : Relation.TransGen (Step items) x top) :
    ∃ n, DescendsWithin items n x top ∧ n + rank top ≤ rank x := by
  induction h with
  | single hs =>
    obtain ⟨i, hi, hid, hip⟩ := hs
    have hr := hrank i hi
    rw [rankOkB, hip] at hr
    have hlt : rank _ < rank i.id := of_decide_eq_true hr
    rw [hid] at hlt
    exact ⟨1, hid ▸ DescendsWithin.direct i _ hi hip, by omega⟩
  | tail hxb hstep ih =>
    obtain ⟨n, hdesc, hbound⟩ := ih
    obtain ⟨i, hi, hid, hip⟩ := hstep
    have hr := hrank i hi
    rw [rankOkB, hip] at hr
    have hlt : rank _ < rank i.id := of_decide_eq_true hr
    rw [hid] at hlt
    refine ⟨n + 1, DescendsWithin.through n i _ _ hi hip ?_, by omega⟩
    rw [hid]
    exact hdesc

/-- A descent below `top` exhibits a direct child of `top`. -/
theorem descendsWithin_child {items : List FileSystemItem} {n : Nat}
    {x top : String} (h : DescendsWithin items n x top) :
    ∃ j ∈ items, j.parentId = some top := by
  cases h with
  | direct i _ hi hip => exact ⟨i, hi, hip⟩
  | through n i _ y hi hip _ => exact ⟨i, hi, hip⟩

/-- Completeness of `hasVisibleChildrenF`: a displayable, matching
descendant within the fuel makes the folder visible. -/
theorem hasVisibleChildrenF_of_descends {items : List FileSystemItem}
    {q : String}
    (hnd : (items.map FileSystemItem.id).Nodup)
    (hpf : ∀ i ∈ items, ∀ p ∈ items, i.parentId = some p.id → p.type = ItemType.folder) :
    ∀ (n : Nat) (x top : String), DescendsWithin items n x top →
      ∀ (fuel : Nat), n ≤ fuel →
      ∀ d ∈ items, d.id = x → displayableB d = true → nameMatchesB q d = true →
      hasVisibleChildrenF items q fuel top = true := by
  intro n x top hdesc
  induction hdesc with
  | direct i top hi hip =>
    intro fuel hfuel d hd hdid hdisp hmatch
    have hdi : d = i := eq_of_id_eq hnd hd hi hdid
    cases fuel with
    | zero => omega
    | succ fuel =>
      rw [hasVisibleChildrenF]
      apply List.any_eq_true.mpr
      refine ⟨i, (mem_getChildItems items (some top) i).mpr ⟨hi, hip⟩, ?_⟩
      rw [← hdi]
      rw [displayableB] at hdisp
      simp [hdisp, hmatch]
  | through n i top y hi hip hsub ih =>
    intro fuel hfuel d hd hdid hdisp hmatch
    cases fuel with
    | zero => omega
    | succ fuel =>
      rw [hasVisibleChildrenF]
      apply List.any_eq_true.mpr
      refine ⟨i, (mem_getChildItems items (some top) i).mpr ⟨hi, hip⟩, ?_⟩
      -- `i` has a child in the collection, so it is a folder
      obtain ⟨j, hj, hjp⟩ := descendsWithin_child hsub
      have hifolder : i.type = ItemType.folder := hpf j hj i hi hjp
      have hrec := ih fuel (by omega) d hd hdid hdisp hmatch
      simp [hifolder, hrec]

/-- Soundness of `hasVisibleChildrenF`: visibility comes from an actual
displayable, matching descendant. -/
theorem descends_of_hasVisibleChildrenF {items : List FileSystemItem}
    {q : String} :
    ∀ (fuel : Nat) (top : String), hasVisibleChildrenF items q fuel top = true →
      ∃ d ∈ items, Relation.TransGen (Step items) d.id top ∧
        displayableB d = true ∧ nameMatchesB q d = true := by
  intro fuel
  induction fuel with
  | zero => intro top h; rw [hasVisibleChildrenF] at h; cases h
  | succ fuel ih =>
    intro top h
    rw [hasVisibleChildrenF] at h
    obtain ⟨c, hc, hcond⟩ := List.any_eq_true.mp h
    obtain ⟨hcmem, hcp⟩ := (mem_getChildItems items (some top) c).mp hc
    simp only [Bool.and_eq_true, Bool.or_eq_true] at hcond
    obtain ⟨hdisp, hmatch | hrec⟩ := hcond
    · exact ⟨c, hcmem, Relation.TransGen.single ⟨c, hcmem, rfl, hcp⟩,
        by rw [displayableB]; simpa using hdisp, hmatch⟩
    · obtain ⟨d, hd, hchain, hddisp, hdmatch⟩ := ih c.id hrec.2
      exact ⟨d, hd, hchain.tail ⟨c, hcmem, rfl, hcp⟩, hddisp, hdmatch⟩

/-- C9 (amended): only folders and `.md` files are ever displayed; an empty
query displays every displayable item; every displayed folder is rendered
expanded under a non-empty query; and under a non-empty query a folder is
displayed iff its own name matches or some transitive descendant that is
itself displayable (folder or `.md` file) matches — a matching descendant of
a hidden kind (e.g. an image) does not keep the folder displayed, contrary
to the claim as stated (see the counterexample).  The rank function is a
depth witness: it drops across parent edges and is bounded by the collection
size. -/
theorem claim_C9_amended_display (items : List FileSystemItem) (q : String)
    (rank : String → Nat)
    (hrank : ∀ i ∈ items, rankOkB rank i = true)
    (hbound : ∀ i ∈ items, rank i.id ≤ items.length)
    (hnd : (items.map FileSystemItem.id).Nodup)
    (hpf : ∀ i ∈ items, ∀ p ∈ items, i.parentId = some p.id → p.type = ItemType.folder) :
    (∀ i, treeItemShown items q i = true → displayableB i = true) ∧
    (∀ i, displayableB i = true → treeItemShown items "" i = true) ∧
    (q ≠ "" → ∀ i, renderedOpen q i = true) ∧
    (q ≠ "" → ∀ f ∈ items, f.type = ItemType.folder →
      (treeItemShown items q f = true ↔
        (nameMatchesB q f = true ∨
          ∃ d ∈ items, Relation.TransGen (Step items) d.id f.id ∧
            displayableB d = true ∧ nameMatchesB q d = true))) := by
  refine ⟨?_, ?_, ?_, ?_⟩
  · intro i h
    rw [treeItemShown, Bool.and_eq_true] at h
    exact h.1
  · intro i h
    rw [treeItemShown, h]
    simp
  · intro hq i
    rw [renderedOpen, if_neg (by simpa using hq)]
  · intro hq f hf hft
    have hqB : (q == "") = false := by simpa using hq
    have hfolderB : (f.type == ItemType.folder) = true := by
      rw [hft]; rfl
    constructor
    · intro hshown
      rw [treeItemShown, Bool.and_eq_true, Bool.or_eq_true] at hshown
      rcases hshown.2 with hq0 | hss
      · rw [hqB] at hq0; cases hq0
      · rw [shouldShowItem, Bool.or_eq_true] at hss
        rcases hss with hvisb | hfold
        · rw [isVisibleB, if_neg (by simp [hqB])] at hvisb
          exact Or.inl hvisb
        · rw [Bool.and_eq_true] at hfold
          exact Or.inr (descends_of_hasVisibleChildrenF _ f.id hfold.2)
    · intro hsrc
      rw [treeItemShown, Bool.and_eq_true]
      refine ⟨by simp [displayableB, hfolderB], ?_⟩
      rw [Bool.or_eq_true]
      right
      rw [shouldShowItem, Bool.or_eq_true]
      rcases hsrc with hmatch | ⟨d, hd, hchain, hddisp, hdmatch⟩
      · left
        rw [isVisibleB, if_neg (by simp [hqB])]
        exact hmatch
      · right
        rw [Bool.and_eq_true]
        refine ⟨hfolderB, ?_⟩
        obtain ⟨n, hdesc, hnb⟩ := transGen_descendsWithin rank hrank hchain
        have hdb := hbound d hd
        exact hasVisibleChildrenF_of_descends hnd hpf n d.id f.id hdesc
          (items.length + 1) (by omega) d hd rfl hddisp hdmatch

/-- C9 counterexample: under the query "cat" the image descendant directly
matches, yet the folder is not displayed — the code only counts displayable
(folder or `.md`) descendants, refuting the claim as stated. -/
theorem claim_C9_counterexample :
    treeItemShown itemsC9 "cat" folderC9 = false ∧
    imgC9 ∈ itemsC9 ∧ nameMatchesB "cat" imgC9 = true ∧
    Relation.TransGen (Step itemsC9) imgC9.id folderC9.id := by
  refine ⟨by decide, by decide, by decide, ?_⟩
  exact Relation.TransGen.single ⟨imgC9, by decide, rfl, by decide⟩

theorem claim_C9_amended_display_witness :
    treeItemShown itemsC9 "cat" folderC9 = true ↔
      (nameMatchesB "cat" folderC9 = true ∨
        ∃ d ∈ itemsC9, Relation.TransGen (Step itemsC9) d.id folderC9.id ∧
          displayableB d = true ∧ nameMatchesB "cat" d = true) :=
  (claim_C9_amended_display itemsC9 "cat" rankC9 (by decide) (by decide)
    (by decide) (by decide)).2.2.2 (by decide) folderC9 (by decide) (by decide)

end StreamNotes
